import Mathlib

/-!
# Verification of the gomsort method sorter

A shallow embedding of the core of the `gomsort` repository (package
`sorter`): method-record extraction, intra-type call-graph construction,
graph metrics (in-degree, cycle-safe max depth), the multi-key comparator
with its bubble sort, and the declaration-tree rewriter, together with
theorems settling the specification claims about them.

The embedding follows the current `dst`-based implementation
(`callgraph.go` / `method.go` / `rewriter.go` of the dst generation); the
older `go/ast` generation is additionally embedded where a claim is about
it (the memoizing depth computation, the deduplicating `AddCall`, the
unguarded call-visitor condition, and the blank-line post-processor).

Go maps from `string` keys are modelled as association lists with
overwrite-on-insert (`mapInsert`) and first-match lookup (`mapLookup`);
the arbitrary iteration order of a Go map is made explicit as an
enumeration parameter wherever the source iterates a map, so that
determinism claims can be stated as independence from that parameter.
Go `int` values are modelled as `Int` (the computations involved never
approach the 64-bit range), and Go string comparison (`strings.Compare`,
byte-wise lexicographic) as Lean's lexicographic `String` order, which
agrees with byte-wise comparison on UTF-8 data.
-/

namespace Gomsort

/-- One receiver-like call site `x.m(...)` occurring in a method body, in
`ast.Walk` traversal order: `xName` is the identifier left of the dot,
`selName` the selected (called) name.  The call visitor reads exactly this
information from each `CallExpr` whose `Fun` is a `SelectorExpr` with an
`Ident` operand. -/
structure CallSite where
  xName : String
  selName : String
deriving DecidableEq, Repr

/-- The receiver field's type expression: `Ident`, `StarExpr` around an
`Ident`, or anything else (e.g. a generic instantiation), which
`extractMethodInfo`'s type switch leaves unhandled. -/
inductive RecvTypeExpr where
  | ident (n : String)
  | star (n : String)
  | other
deriving DecidableEq, Repr

/-- One field of a receiver field list: parameter names and type.  The
sorter never reads `names` (it matches call sites against the receiver
*type* name); the field is kept because the specification talks about the
receiver parameter name. -/
structure RecvField where
  names : List String
  type : RecvTypeExpr
deriving DecidableEq, Repr

/-- A function declaration.  `uid` models pointer identity of the parsed
`*dst.FuncDecl` node (distinct nodes of one file have distinct `uid`s);
`recv = none` is a free function, `body = none` a body-less declaration.
The body is abstracted to its receiver-like call sites in walk order,
the only data the call visitor consumes. -/
structure FuncDecl where
  uid : Nat
  name : String
  recv : Option (List RecvField)
  body : Option (List CallSite)
deriving DecidableEq, Repr

/-- A top-level declaration: a function declaration or any other
declaration (type, const, var, import), identified by a tag. -/
inductive Decl where
  | funcD (f : FuncDecl)
  | genD (tag : Nat)
deriving DecidableEq, Repr

/-- `MethodInfo` of `method.go` (dst generation): `position` is the
first-appearance index among extracted methods, `inDegree`/`maxDepth` are
filled in by `CalculateMetrics`, `funcDecl` is the non-owning handle back
into the declaration list. -/
structure MethodInfo where
  name : String
  receiverName : String
  receiverType : String
  isExported : Bool
  funcDecl : FuncDecl
  position : Int
  inDegree : Int
  maxDepth : Int
deriving DecidableEq, Repr

/-- `MethodSortKey` of `method.go`. -/
structure MethodSortKey where
  receiverName : String
  isExported : Bool
  inDegree : Int
  maxDepth : Int
  originalPos : Int
deriving DecidableEq, Repr

/-- Lexicographic strict comparison of character lists: the effect of
`strings.Compare(x, y) < 0` on the underlying byte sequences (byte-wise
and code-point-wise lexicographic order agree on UTF-8).  Lean's built-in
`String.lt` decision procedure does not reduce under the kernel, so the
comparison is computed on the character lists and related to the `String`
order by `charListLt_iff`. -/
def charListLt : List Char → List Char → Bool
  | [], [] => false
  | [], _ :: _ => true
  | _ :: _, [] => false
  | a :: as, b :: bs =>
    if a < b then true
    else if b < a then false
    else charListLt as bs

/-- `strings.Compare(x, y) < 0`. -/
def strLt (x y : String) : Bool :=
  charListLt x.data y.data

/-- `strings.Compare(x, y) <= 0`. -/
def strLe (x y : String) : Bool :=
  !(charListLt y.data x.data)

/-- `MethodInfo.SortKey`. -/
def MethodInfo.sortKey (m : MethodInfo) : MethodSortKey :=
  { receiverName := m.receiverName
    isExported := m.isExported
    inDegree := m.inDegree
    maxDepth := m.maxDepth
    originalPos := m.position }

/-- `isExported` of `method.go`: first byte in `'A'..'Z'`.  (For a
non-ASCII first character the first UTF-8 byte is `≥ 0xC2`, outside
`'A'..'Z'`, so testing the first *character* is equivalent.) -/
def isExportedGo (name : String) : Bool :=
  match name.data with
  | [] => false
  | c :: _ => decide ('A' ≤ c) && decide (c ≤ 'Z')

/-- `extractMethodInfo` of `method.go` (dst generation): `none` unless the
declaration has a non-empty receiver list; receiver type `Ident` or
`StarExpr (Ident)` fills the receiver names, any other receiver type
leaves them at the zero value `""`. -/
def extractMethodInfo (decl : FuncDecl) (position : Int) : Option MethodInfo :=
  match decl.recv with
  | none => none
  | some [] => none
  | some (rf :: _) =>
    let base : MethodInfo :=
      { name := decl.name
        receiverName := ""
        receiverType := ""
        isExported := isExportedGo decl.name
        funcDecl := decl
        position := position
        inDegree := 0
        maxDepth := 0 }
    some <|
      match rf.type with
      | .ident n => { base with receiverType := n, receiverName := n }
      | .star n => { base with receiverType := "*" ++ n, receiverName := n }
      | .other => base

/-- `shouldSwap` of `method.go`: `true` when `a` must sort strictly after
`b`.  `strings.Compare(x, y) > 0` is byte-wise `x > y`, modelled as
`y < x` on Lean strings. -/
def shouldSwap (a b : MethodInfo) : Bool :=
  let keyA := a.sortKey
  let keyB := b.sortKey
  if keyA.receiverName ≠ keyB.receiverName then
    strLt keyB.receiverName keyA.receiverName
  else if keyA.isExported ≠ keyB.isExported then
    !keyA.isExported
  else if keyA.maxDepth ≠ keyB.maxDepth then
    decide (keyB.maxDepth < keyA.maxDepth)
  else if keyA.inDegree ≠ keyB.inDegree then
    decide (keyA.inDegree < keyB.inDegree)
  else
    decide (keyB.originalPos < keyA.originalPos)

/-- The inner loop of `sortMethods`' bubble sort with comparison budget
`k`: walks adjacent pairs `(j, j+1)` for `j < k`, swapping when
`shouldSwap`, carrying the displaced element forward. -/
def bubblePassN : Nat → List MethodInfo → List MethodInfo
  | _, [] => []
  | _, [a] => [a]
  | 0, l => l
  | k + 1, a :: b :: rest =>
    if shouldSwap a b then b :: bubblePassN k (a :: rest)
    else a :: bubblePassN k (b :: rest)

/-- The outer loop of `sortMethods`: pass `i` of the Go loop runs the
inner loop with budget `len - i - 1`, i.e. budgets `k, k-1, …, 1`. -/
def sortAux : Nat → List MethodInfo → List MethodInfo
  | 0, l => l
  | k + 1, l => sortAux k (bubblePassN (k + 1) l)

/-- `sortMethods` of `method.go`: copy, then bubble sort with
`shouldSwap`. -/
def sortMethods (methods : List MethodInfo) : List MethodInfo :=
  sortAux (methods.length - 1) methods

/-! ## Go map model -/

/-- Lookup in a Go map modelled as an association list. -/
def mapLookup {α : Type} : List (String × α) → String → Option α
  | [], _ => none
  | p :: rest, k => if p.1 = k then some p.2 else mapLookup rest k

/-- Insertion into a Go map: overwrite the existing entry in place, or
append a new one. -/
def mapInsert {α : Type} (m : List (String × α)) (k : String) (v : α) :
    List (String × α) :=
  if (mapLookup m k).isSome then
    m.map (fun p => if p.1 = k then (k, v) else p)
  else m ++ [(k, v)]

/-- The keys of a map, in entry order. -/
def mapKeysOf {α : Type} (m : List (String × α)) : List String :=
  m.map (fun p => p.1)

/-! ## Call graph (`callgraph.go`, dst generation) -/

/-- `methodKey`. -/
def methodKey (receiver method : String) : String :=
  receiver ++ "." ++ method

/-- `CallGraph`: method records, adjacency lists and positions, all keyed
by `methodKey`. -/
structure CallGraph where
  methods : List (String × MethodInfo)
  calls : List (String × List String)
  positions : List (String × Int)
deriving DecidableEq, Repr

/-- `NewCallGraph`. -/
def NewCallGraph : CallGraph := ⟨[], [], []⟩

/-- `CallGraph.AddMethod` (dst generation). -/
def AddMethod (cg : CallGraph) (m : MethodInfo) : CallGraph :=
  let key := methodKey m.receiverName m.name
  { cg with
    methods := mapInsert cg.methods key m
    positions := mapInsert cg.positions key m.position }

/-- `CallGraph.AddCall` (dst generation): append the target key to the
source's call list — only when the target is a known method, and with no
deduplication of parallel edges. -/
def AddCall (cg : CallGraph) (fromReceiver fromMethod toReceiver toMethod : String) :
    CallGraph :=
  let fromKey := methodKey fromReceiver fromMethod
  let toKey := methodKey toReceiver toMethod
  if (mapLookup cg.methods toKey).isSome then
    { cg with
      calls := mapInsert cg.calls fromKey ((mapLookup cg.calls fromKey).getD [] ++ [toKey]) }
  else cg

/-- ASCII lower-casing of one character, the effect of
`strings.EqualFold` on single-byte operands. -/
def asciiLower (c : Char) : Char :=
  if 'A' ≤ c ∧ c ≤ 'Z' then Char.ofNat (c.toNat + 32) else c

/-- First character of a string (only meaningful on non-empty input). -/
def headChar (s : String) : Char :=
  s.data.headD default

/-- The receiver-likeness test of `callVisitor.Visit` (dst generation):
the identifier is `"self"`, or equal to the current receiver type name,
or a single-byte identifier whose letter case-insensitively matches the
first letter of the (non-empty) receiver type name. -/
def identMatches (recvName identName : String) : Bool :=
  identName == "self" || identName == recvName ||
    (identName.utf8ByteSize == 1 && decide (0 < recvName.length) &&
      asciiLower (headChar identName) == asciiLower (headChar recvName))

/-- The effect of `dst.Walk` with `callVisitor` over one method body:
each matching call site, in walk order, adds an edge from the current
method to the selected name under the same receiver. -/
def visitBody (recvName methodName : String) : List CallSite → CallGraph → CallGraph
  | [], cg => cg
  | s :: rest, cg =>
    visitBody recvName methodName rest
      (if identMatches recvName s.xName then
        AddCall cg recvName methodName recvName s.selName
      else cg)

/-- First pass of `buildCallGraph`: collect all method records, numbering
them by first appearance. -/
def collectMethods : List Decl → Int → CallGraph → CallGraph
  | [], _, cg => cg
  | .genD _ :: ds, pos, cg => collectMethods ds pos cg
  | .funcD f :: ds, pos, cg =>
    match extractMethodInfo f pos with
    | some m => collectMethods ds (pos + 1) (AddMethod cg m)
    | none => collectMethods ds pos cg

/-- Second pass of `buildCallGraph`: walk every method body (when
present) with the call visitor. -/
def collectCalls : List Decl → CallGraph → CallGraph
  | [], cg => cg
  | .genD _ :: ds, cg => collectCalls ds cg
  | .funcD f :: ds, cg =>
    match extractMethodInfo f 0 with
    | some m =>
      match f.body with
      | some sites => collectCalls ds (visitBody m.receiverName m.name sites cg)
      | none => collectCalls ds cg
    | none => collectCalls ds cg

/-! ## Metrics engine (`callgraph.go`, dst generation)

`calculateMaxDepth` recurses through the adjacency lists with a
per-traversal visited set; the recursion is bounded because the visited
set grows inside the finite key set of the `calls` map.  It is embedded
with an explicit fuel argument (structural recursion, so that concrete
evaluation reduces), and `calculateMaxDepth` instantiates the fuel with a
sufficient bound; `calcDepthFuel_stable` below proves the result
independent of the fuel from that bound on, which recovers the Go
function's defining recurrence (`calculateMaxDepth_recurrence`). -/

/-- The key set of the adjacency map. -/
def callsKeys (calls : List (String × List String)) : Finset String :=
  (calls.map (fun p => p.1)).toFinset

/-- Adjacency-list lookup with the Go zero value for missing keys. -/
def lookupCalls (calls : List (String × List String)) (k : String) : List String :=
  (mapLookup calls k).getD []

/-- Fuelled version of `CallGraph.calculateMaxDepth`: 0 on re-entering
the current traversal path, otherwise the maximum of successor depths
plus one. -/
def calcDepthFuel (calls : List (String × List String)) :
    Nat → Finset String → String → Int
  | 0, _, _ => 0
  | fuel + 1, visited, key =>
    if key ∈ visited then 0
    else
      (lookupCalls calls key).foldl
        (fun maxDepth t =>
          let depth := calcDepthFuel calls fuel (insert key visited) t
          if depth + 1 > maxDepth then depth + 1 else maxDepth)
        0

/-- `CallGraph.calculateMaxDepth` (dst generation): the fuelled depth at
a fuel large enough never to run out. -/
def calculateMaxDepth (calls : List (String × List String)) (key : String)
    (visited : Finset String) : Int :=
  calcDepthFuel calls ((callsKeys calls \ visited).card + 1) visited key

/-- The in-degree accumulation loop of `CalculateMetrics`: one counter
increment per adjacency-list entry. -/
def inDegreeMap (cg : CallGraph) (keys : List String) : List (String × Int) :=
  keys.foldl
    (fun ind key =>
      match mapLookup cg.calls key with
      | some cs => cs.foldl (fun m t => mapInsert m t ((mapLookup m t).getD 0 + 1)) ind
      | none => ind)
    []

/-- `sort.Strings`.  (Any correct sort; modelled by insertion sort with
the executable string order.) -/
def sortStrings (l : List String) : List String :=
  l.insertionSort (fun a b => strLe a b = true)

/-- `CallGraph.CalculateMetrics` (dst generation), with the arbitrary
iteration order of `range cg.methods` made explicit as `e`: sort the
keys, accumulate in-degrees, then store per-key in-degree and a
fresh-visited-set max depth into each record. -/
def CalculateMetricsE (cg : CallGraph) (e : List String) : CallGraph :=
  let keys := sortStrings e
  let ind := inDegreeMap cg keys
  { cg with
    methods :=
      keys.foldl
        (fun ms key =>
          match mapLookup ms key with
          | some m =>
            mapInsert ms key
              { m with
                maxDepth := calculateMaxDepth cg.calls key ∅
                inDegree := (mapLookup ind key).getD 0 }
          | none => ms)
        cg.methods }

/-- `sort.Slice(methods, …Position < …Position)`: since positions of the
records in the map are pairwise distinct, the (unstable) slice sort has
the unique by-position-sorted result, modelled by insertion sort. -/
def sortByPosition (ms : List MethodInfo) : List MethodInfo :=
  ms.insertionSort (fun a b => a.position ≤ b.position)

/-- `CallGraph.GetMethods` (dst generation), iteration order explicit:
collect the records in sorted-key order, then sort by original
position. -/
def GetMethodsE (cg : CallGraph) (e : List String) : List MethodInfo :=
  sortByPosition ((sortStrings e).filterMap (fun k => mapLookup cg.methods k))

/-- `buildCallGraph` (dst generation) with explicit metrics iteration
order: collect methods, collect calls, compute metrics. -/
def buildCallGraphE (decls : List Decl) (e : List String) : CallGraph :=
  CalculateMetricsE (collectCalls decls (collectMethods decls 0 NewCallGraph)) e

/-- The canonical key enumeration: entry order of the methods map. -/
def methodKeysOf (decls : List Decl) : List String :=
  mapKeysOf (collectMethods decls 0 NewCallGraph).methods

/-- `buildCallGraph` with the canonical enumeration. -/
def buildCallGraph (decls : List Decl) : CallGraph :=
  buildCallGraphE decls (methodKeysOf decls)

/-- `CallGraph.GetMethods` with the canonical enumeration. -/
def GetMethods (cg : CallGraph) : List MethodInfo :=
  GetMethodsE cg (mapKeysOf cg.methods)

/-! ## The sorter pipeline (`rewriter.go`, dst generation)

The renderer (`decorator.Fprint`) and parser are external collaborators;
the pipeline is modelled from the parsed declaration list to the
rewritten declaration list plus the changed flag. -/

/-- `Sorter.hasOrderChanged`: length mismatch or any position mismatch at
the same index. -/
def hasOrderChanged (original sorted : List MethodInfo) : Bool :=
  original.length != sorted.length ||
    (original.zip sorted).any (fun p => p.1.position != p.2.position)

/-- `Sorter.reorderMethods` (dst generation): keep every declaration that
is not one of the sorted methods' nodes, in order, then append the sorted
methods' nodes in target order. -/
def reorderMethods (decls : List Decl) (sortedMethods : List MethodInfo) : List Decl :=
  decls.filter
    (fun d =>
      match d with
      | .funcD f => !(sortedMethods.any (fun m => m.funcDecl == f))
      | .genD _ => true)
    ++ sortedMethods.map (fun m => Decl.funcD m.funcDecl)

/-- `Sorter.Sort` (dst generation) with explicit map iteration orders
`e₁` (metrics) and `e₂` (`GetMethods`): returns the declaration list
handed to the renderer and the changed flag. -/
def sorterSortE (decls : List Decl) (e₁ e₂ : List String) : List Decl × Bool :=
  let cg := buildCallGraphE decls e₁
  let methods := GetMethodsE cg e₂
  if methods.length = 0 then (decls, false)
  else
    let sorted := sortMethods methods
    if hasOrderChanged methods sorted then (reorderMethods decls sorted, true)
    else (decls, false)

/-- `Sorter.Sort` with the canonical enumerations. -/
def sorterSort (decls : List Decl) : List Decl × Bool :=
  sorterSortE decls (methodKeysOf decls) (methodKeysOf decls)

/-! ## The `go/ast` generation

The claims also cite the older `go/ast`-based files (`callgraph.go` lines
132–155, `rewriter.go` lines 24–186 of that generation); the pieces that
differ are embedded here: the deduplicating `AddCall` without the
known-target check, the memoizing `calculateDepth` sharing its memo
across starting nodes, the call-visitor condition without the length
guard on the receiver name (`Except` models the byte-slice panic), and
the `ensureBlankLinesBetweenMethods` post-processor. -/

/-- `CallGraph.AddCall` (go/ast generation): deduplicates parallel edges,
but records edges to unknown targets as well. -/
def AddCallAst (cg : CallGraph) (fromReceiver fromMethod toReceiver toMethod : String) :
    CallGraph :=
  let fromKey := methodKey fromReceiver fromMethod
  let toKey := methodKey toReceiver toMethod
  let existing := (mapLookup cg.calls fromKey).getD []
  if toKey ∈ existing then cg
  else { cg with calls := mapInsert cg.calls fromKey (existing ++ [toKey]) }

/-- The receiver-likeness test of `callVisitor.Visit` (go/ast
generation): no guard on the receiver name's length, so a single-byte
identifier with an empty current receiver name evaluates
`v.currentReceiver[0:1]` out of range — modelled as `Except.error`. -/
def identMatchesAst (recvName identName : String) : Except String Bool :=
  if identName == "self" then .ok true
  else if identName == recvName then .ok true
  else if identName.utf8ByteSize == 1 then
    if recvName.utf8ByteSize == 0 then
      .error "runtime error: slice bounds out of range"
    else .ok (asciiLower (headChar identName) == asciiLower (headChar recvName))
  else .ok false

/-- `ast.Walk` with the go/ast `callVisitor` over one body, propagating
the panic. -/
def visitBodyAst (recvName methodName : String) (sites : List CallSite)
    (cg : CallGraph) : Except String CallGraph :=
  match sites with
  | [] => .ok cg
  | s :: rest =>
    match identMatchesAst recvName s.xName with
    | .error e => .error e
    | .ok true =>
      visitBodyAst recvName methodName rest
        (AddCallAst cg recvName methodName recvName s.selName)
    | .ok false => visitBodyAst recvName methodName rest cg

/-- The edge pass of `buildCallGraph` (go/ast generation), propagating
the panic. -/
def collectCallsAst : List Decl → CallGraph → Except String CallGraph
  | [], cg => .ok cg
  | .genD _ :: ds, cg => collectCallsAst ds cg
  | .funcD f :: ds, cg =>
    match extractMethodInfo f 0 with
    | some m =>
      match f.body with
      | some sites =>
        match visitBodyAst m.receiverName m.name sites cg with
        | .error e => .error e
        | .ok cg' => collectCallsAst ds cg'
      | none => collectCallsAst ds cg
    | none => collectCallsAst ds cg

/-- The memoizing `calculateDepth` of `CalculateMetrics` (go/ast
generation), fuelled like `calcDepthFuel`: the `visited` set is the
current traversal path, while `memo` persists across starting nodes.
Returns the depth and the updated memo. -/
def calcDepthMemoFuel (calls : List (String × List String)) :
    Nat → Finset String → List (String × Int) → String → Int × List (String × Int)
  | 0, _, memo, _ => (0, memo)
  | fuel + 1, visited, memo, key =>
    if key ∈ visited then (0, memo)
    else
      match mapLookup memo key with
      | some d => (d, memo)
      | none =>
        let res :=
          (lookupCalls calls key).foldl
            (fun (acc : Int × List (String × Int)) t =>
              let r := calcDepthMemoFuel calls fuel (insert key visited) acc.2 t
              (if r.1 + 1 > acc.1 then r.1 + 1 else acc.1, r.2))
            (0, memo)
        (res.1, mapInsert res.2 key res.1)

/-- The memoizing `calculateDepth` at a sufficient fuel. -/
def calcDepthMemo (calls : List (String × List String)) (key : String)
    (visited : Finset String) (memo : List (String × Int)) :
    Int × List (String × Int) :=
  calcDepthMemoFuel calls ((callsKeys calls \ visited).card + 1) visited memo key

/-- The depth loop of `CalculateMetrics` (go/ast generation): run the
memoizing computation over the starting nodes in map-iteration order
`ks`, returning the final `maxDepth` memo. -/
def calculateDepthAll (calls : List (String × List String)) (ks : List String) :
    List (String × Int) :=
  ks.foldl (fun memo k => (calcDepthMemo calls k ∅ memo).2) []

/-- Splits a character list at newlines, accumulating the current line
reversed. -/
def splitLinesAux : List Char → List Char → List String
  | [], acc => [⟨acc.reverse⟩]
  | c :: cs, acc =>
    if c = '\n' then ⟨acc.reverse⟩ :: splitLinesAux cs []
    else splitLinesAux cs (c :: acc)

/-- `strings.Split(content, "\n")`. -/
def splitLines (content : String) : List String :=
  splitLinesAux content.data []

/-- White space as recognised by `strings.TrimSpace` (the ASCII cases;
the inputs involved contain no exotic Unicode spacing). -/
def isSpaceGo (c : Char) : Bool :=
  c == ' ' || c == '\t' || c == '\n' || c == '\r'

/-- `strings.TrimSpace`. -/
def trimGo (s : String) : String :=
  ⟨((s.data.dropWhile isSpaceGo).reverse.dropWhile isSpaceGo).reverse⟩

/-- `strings.HasPrefix s pre`. -/
def startsWithGo (s pre : String) : Bool :=
  s.data.take pre.data.length == pre.data

/-- The line scan of `ensureBlankLinesBetweenMethods`: after each line
whose trimmed text is `"\x7d"` and whose successor's trimmed text starts
with `"func "`, insert one blank line. -/
def ensureAux : List String → List String
  | [] => []
  | [l] => [l]
  | l :: next :: rest =>
    if (trimGo l == "\x7d") && startsWithGo (trimGo next) "func " then
      l :: "" :: ensureAux (next :: rest)
    else l :: ensureAux (next :: rest)

/-- `Sorter.ensureBlankLinesBetweenMethods` (go/ast generation). -/
def ensureBlankLinesBetweenMethods (content : String) : String :=
  String.intercalate "\n" (ensureAux (splitLines content))

/-! ## Derived definitions used by the claim statements -/

/-- The comparator's key as an element of a lexicographic product order:
receiver name ascending, exported-first (`!isExported` ascending), max
depth ascending, in-degree as implemented (negated, i.e. descending),
original position ascending.  `shouldSwap a b` decides `lexKey b < lexKey a`
(`shouldSwap_iff`). -/
def lexKey (m : MethodInfo) : String ×ₗ Bool ×ₗ Int ×ₗ Int ×ₗ Int :=
  toLex (m.receiverName, toLex (!m.isExported, toLex (m.maxDepth, toLex (-m.inDegree, m.position))))

/-- Modelled from the spec (§4.2, claim C2): the condition under which a
call expression `x.called()` counts as an intra-type call, stated with
the current method's receiver *parameter* name as the spec words it:
`x` identical to the receiver parameter name, or `x = "self"`, or a
single-byte `x` case-insensitively matching the first letter of the
receiver parameter name. -/
def specIntraTypeCallCond (recvParamName identName : String) : Bool :=
  identName == recvParamName || identName == "self" ||
    (identName.utf8ByteSize == 1 && decide (0 < recvParamName.length) &&
      asciiLower (headChar identName) == asciiLower (headChar recvParamName))

/-- A declaration that the extractor classifies as a method (non-empty
receiver list). -/
def isMethodDecl (d : Decl) : Bool :=
  match d with
  | .funcD f => (extractMethodInfo f 0).isSome
  | .genD _ => false

/-- The sequence of method records extracted from a declaration list in
first-appearance order, numbering from `pos` — the records that the first
pass of `buildCallGraph` inserts into the methods map, in insertion
order. -/
def extractRecords : List Decl → Int → List MethodInfo
  | [], _ => []
  | .genD _ :: ds, pos => extractRecords ds pos
  | .funcD f :: ds, pos =>
    match extractMethodInfo f pos with
    | some m => m :: extractRecords ds (pos + 1)
    | none => extractRecords ds pos

/-- Keys of the extracted records, in extraction order. -/
def recordKeys (decls : List Decl) : List String :=
  (extractRecords decls 0).map (fun m => methodKey m.receiverName m.name)

/-- The keys of the method declarations of a file, in declaration order
(the receiver/name key does not depend on the position argument). -/
def declKeys : List Decl → List String
  | [] => []
  | .genD _ :: ds => declKeys ds
  | .funcD f :: ds =>
    match extractMethodInfo f 0 with
    | some m => methodKey m.receiverName m.name :: declKeys ds
    | none => declKeys ds

/-- The edge targets one body walk appends to its method's call list:
one entry per matching call site whose target is a known method. -/
def bodyEdges (ms : List (String × MethodInfo)) (recvName : String)
    (sites : List CallSite) : List String :=
  sites.filterMap
    (fun s =>
      if identMatches recvName s.xName &&
          (mapLookup ms (methodKey recvName s.selName)).isSome then
        some (methodKey recvName s.selName)
      else none)

/-- The edge targets the whole second pass appends at key `k`. -/
def declsEdges (ms : List (String × MethodInfo)) : List Decl → String → List String
  | [], _ => []
  | .genD _ :: ds, k => declsEdges ms ds k
  | .funcD f :: ds, k =>
    (match extractMethodInfo f 0, f.body with
      | some m, some sites =>
        if k = methodKey m.receiverName m.name then bodyEdges ms m.receiverName sites
        else []
      | some _, none => []
      | none, _ => []) ++ declsEdges ms ds k

/-- The graph key of a method record. -/
def recKey (m : MethodInfo) : String :=
  methodKey m.receiverName m.name

/-- Renumber a record sequence with consecutive positions starting at
`p`, resetting the metrics — the records the first pass would extract
from these records' declarations laid out in this order. -/
def resetList : List MethodInfo → Int → List MethodInfo
  | [], _ => []
  | m :: rest, p =>
    { m with position := p, inDegree := 0, maxDepth := 0 } :: resetList rest (p + 1)

/-- The per-record effect of `CalculateMetrics` on the graph `cg` with
enumeration `e`. -/
def metricize (cg : CallGraph) (e : List String) (m : MethodInfo) : MethodInfo :=
  { m with
    maxDepth := calculateMaxDepth cg.calls (recKey m) ∅
    inDegree := (mapLookup (inDegreeMap cg (sortStrings e)) (recKey m)).getD 0 }

/-- Renumber a record sequence with consecutive positions starting at
`p`, keeping everything else (the records the second run of the pipeline
produces from a reordered file, once the metrics are shown equal). -/
def renumber : List MethodInfo → Int → List MethodInfo
  | [], _ => []
  | m :: rest, p => { m with position := p } :: renumber rest (p + 1)

/-- The call graph after the two collection passes, before metrics. -/
def rawGraph (decls : List Decl) : CallGraph :=
  collectCalls decls (collectMethods decls 0 NewCallGraph)

/-- The record list a `Sort` run computes (canonical map enumeration),
the `methods` slice of `Sorter.Sort`. -/
def run1Methods (decls : List Decl) : List MethodInfo :=
  GetMethodsE (buildCallGraphE decls (methodKeysOf decls)) (methodKeysOf decls)

/-! ### Concrete inputs used by counterexamples and witnesses -/

/-- Claim C1's failing input, first record: exported `Server` method,
depth 1, in-degree 0, original position 0 (the shared-by-nobody
helper). -/
def c1MethodA : MethodInfo :=
  { name := "Start", receiverName := "Server", receiverType := "*Server",
    isExported := true,
    funcDecl := ⟨0, "Start", some [⟨["s"], .star "Server"⟩], some []⟩,
    position := 0, inDegree := 0, maxDepth := 1 }

/-- Claim C1's failing input, second record: identical sort key except
in-degree 3 and original position 1 (the widely shared helper). -/
def c1MethodB : MethodInfo :=
  { name := "Stop", receiverName := "Server", receiverType := "*Server",
    isExported := true,
    funcDecl := ⟨1, "Stop", some [⟨["s"], .star "Server"⟩], some []⟩,
    position := 1, inDegree := 3, maxDepth := 1 }

/-- Claim C6's failing input: `Start` calls `s.helper()` twice. -/
def c6File : List Decl :=
  [.funcD ⟨0, "Start", some [⟨["s"], .star "Server"⟩],
      some [⟨"s", "helper"⟩, ⟨"s", "helper"⟩]⟩,
   .funcD ⟨1, "helper", some [⟨["s"], .star "Server"⟩], some []⟩]

/-- Claim C8's failing input: two methods sharing the key
`Server.Start` (a shadowing duplicate), a non-method declaration between
them, and a helper.  The second `Start` overwrites the first in the
methods map, so the first `Start` is not recognised as a method node by
`reorderMethods` and stays in the non-method prefix. -/
def dupFile : List Decl :=
  [.funcD ⟨0, "helper", some [⟨["s"], .star "Server"⟩], some []⟩,
   .funcD ⟨1, "Start", some [⟨["s"], .star "Server"⟩], some []⟩,
   .genD 5,
   .funcD ⟨2, "Start", some [⟨["s"], .star "Server"⟩], some []⟩]

/-- A file whose sorted order differs from the original: the private
`helper` precedes the exported `Start`, with a non-method declaration in
front. -/
def c8File : List Decl :=
  [.genD 7,
   .funcD ⟨0, "helper", some [⟨["s"], .star "Server"⟩], some []⟩,
   .funcD ⟨1, "Start", some [⟨["s"], .star "Server"⟩], some [⟨"s", "helper"⟩]⟩]

/-- Claim C10's failing input: a method whose receiver type is neither an
identifier nor a pointer to one (e.g. the generic receiver `S[T]`), so
its extracted receiver name is the zero value `""`, and whose body calls
through a single-byte identifier. -/
def c10Method : FuncDecl :=
  ⟨0, "M", some [⟨["s"], .other⟩], some [⟨"x", "Do"⟩]⟩

/-- The file around claim C10's failing method. -/
def c10File : List Decl :=
  [.funcD c10Method]

/-- Claim C9's failing input: rendered output in which two consecutive
type declarations abut with no blank line.  (`\x7b`/`\x7d` are the brace
characters.) -/
def c9Content : String :=
  "package p\n\ntype A struct \x7b\n\x7d\ntype B struct \x7b\n\x7d"

/-- Claim C5's counterexample graph: the 2-cycle `A → B → A`. -/
def c5Calls : List (String × List String) :=
  [("A", ["B"]), ("B", ["A"])]

/-- Claim C2's counterexample file: the method `Start` has receiver
*parameter* name `x` (receiver type `Server`) and calls `x.helper()`;
`helper` exists on the same receiver type. -/
def c2File : List Decl :=
  [.funcD ⟨0, "Start", some [⟨["x"], .star "Server"⟩], some [⟨"x", "helper"⟩]⟩,
   .funcD ⟨1, "helper", some [⟨["h"], .star "Server"⟩], some []⟩]

/-- Claim C4's witness file: two mutually recursive private methods. -/
def c4File : List Decl :=
  [.funcD ⟨0, "methodA", some [⟨["s"], .star "Server"⟩], some [⟨"s", "methodB"⟩]⟩,
   .funcD ⟨1, "methodB", some [⟨["s"], .star "Server"⟩], some [⟨"s", "methodA"⟩]⟩]

/-- The call graph of `c4File` before metrics. -/
def c4CG : CallGraph :=
  collectCalls c4File (collectMethods c4File 0 NewCallGraph)

/-- The record `CalculateMetrics` produces for `methodA` of `c4File`:
depth 2 and in-degree 1, despite the cycle. -/
def c4Record : MethodInfo :=
  { name := "methodA", receiverName := "Server", receiverType := "*Server",
    isExported := false,
    funcDecl := ⟨0, "methodA", some [⟨["s"], .star "Server"⟩], some [⟨"s", "methodB"⟩]⟩,
    position := 0, inDegree := 1, maxDepth := 2 }

/-- A memo is sound when every entry records the unmemoized reference
depth of its key. -/
def memoOK (calls : List (String × List String)) (memo : List (String × Int)) : Prop :=
  ∀ k d, mapLookup memo k = some d → d = calculateMaxDepth calls k ∅

/-- One step of the target fold inside the memoizing depth computation. -/
def memoStep (calls : List (String × List String)) (fuel : Nat) (visited : Finset String)
    (acc : Int × List (String × Int)) (t : String) : Int × List (String × Int) :=
  let r := calcDepthMemoFuel calls fuel visited acc.2 t
  (if r.1 + 1 > acc.1 then r.1 + 1 else acc.1, r.2)

/-- Claim C5's witness graph: the acyclic chain `A → B`. -/
def c5AcyclicCalls : List (String × List String) :=
  [("A", ["B"]), ("B", [])]

/-- A topological rank for the witness graph. -/
def c5Rank (s : String) : Nat :=
  if s = "A" then 1 else 0

/-! ## Association-list (Go map) lemmas -/

theorem mapLookup_eq_none_iff {α : Type} (m : List (String × α)) (k : String) :
    mapLookup m k = none ↔ k ∉ mapKeysOf m := by
  induction m with
  | nil => simp [mapLookup, mapKeysOf]
  | cons p rest ih =>
    by_cases h : p.1 = k
    · simp [mapLookup, h, mapKeysOf]
    · simp only [mapLookup, h, if_false, ih, mapKeysOf, List.map_cons, List.mem_cons]
      constructor
      · rintro hk (rfl | hm)
        · exact h rfl
        · exact hk hm
      · intro hk hm
        exact hk (Or.inr hm)

theorem mapLookup_isSome_iff {α : Type} (m : List (String × α)) (k : String) :
    (mapLookup m k).isSome = true ↔ k ∈ mapKeysOf m := by
  rw [← Decidable.not_not (p := k ∈ mapKeysOf m), ← mapLookup_eq_none_iff]
  cases mapLookup m k <;> simp

theorem mapLookup_replace {α : Type} (m : List (String × α)) (k k' : String) (v : α) :
    mapLookup (m.map (fun p => if p.1 = k then (k, v) else p)) k' =
      if k' = k then (mapLookup m k).map (fun _ => v) else mapLookup m k' := by
  induction m with
  | nil => by_cases h : k' = k <;> simp [h, mapLookup]
  | cons p rest ih =>
    by_cases hpk : p.1 = k
    · by_cases h2 : k' = k
      · simp [mapLookup, hpk, h2]
      · simp only [List.map_cons, hpk, if_true, mapLookup,
          show ¬(k = k') from fun h => h2 h.symm, if_false, ih, h2]
    · by_cases hpk' : p.1 = k'
      · have h2 : ¬(k' = k) := fun h => hpk (hpk' ▸ h ▸ rfl)
        simp [mapLookup, hpk, hpk', h2]
      · by_cases h2 : k' = k
        · subst h2
          simp [List.map_cons, mapLookup, hpk, hpk', ih]
        · simp [List.map_cons, mapLookup, hpk, hpk', ih, h2]

theorem mapLookup_append_fresh {α : Type} (m : List (String × α)) (k k' : String) (v : α)
    (h : mapLookup m k = none) :
    mapLookup (m ++ [(k, v)]) k' = if k' = k then some v else mapLookup m k' := by
  induction m with
  | nil =>
    by_cases h2 : k' = k
    · simp [mapLookup, h2]
    · simp [mapLookup, show ¬(k = k') from fun hh => h2 hh.symm, h2]
  | cons p rest ih =>
    rw [show mapLookup (p :: rest) k = if p.1 = k then some p.2 else mapLookup rest k from rfl] at h
    by_cases hpk : p.1 = k
    · simp [hpk] at h
    · simp only [hpk, if_false] at h
      by_cases hpk' : p.1 = k'
      · have h2 : ¬(k' = k) := fun hh => hpk (hpk' ▸ hh ▸ rfl)
        simp [mapLookup, hpk', h2]
      · simp only [List.cons_append, mapLookup, hpk', if_false]
        exact ih h

theorem mapLookup_mapInsert {α : Type} (m : List (String × α)) (k k' : String) (v : α) :
    mapLookup (mapInsert m k v) k' = if k' = k then some v else mapLookup m k' := by
  unfold mapInsert
  by_cases hp : (mapLookup m k).isSome
  · simp only [hp, if_true]
    rw [mapLookup_replace]
    by_cases h2 : k' = k
    · rcases hs : mapLookup m k with _ | q
      · rw [hs] at hp; simp at hp
      · simp [h2, hs]
    · simp [h2]
  · simp only [hp, Bool.false_eq_true, if_false]
    apply mapLookup_append_fresh
    rcases hs : mapLookup m k with _ | q
    · rfl
    · rw [hs] at hp; simp at hp

/-! ## The executable string order agrees with the `String` linear order -/

theorem charListLt_iff_lex (as bs : List Char) :
    charListLt as bs = true ↔ List.Lex (· < ·) as bs := by
  induction as generalizing bs with
  | nil =>
    cases bs with
    | nil => simp [charListLt]
    | cons b bs =>
      simp only [charListLt, true_iff]
      exact List.Lex.nil
  | cons a as ih =>
    cases bs with
    | nil => simp [charListLt]
    | cons b bs =>
      by_cases hab : a < b
      · simp only [charListLt, hab, if_true, true_iff]
        exact List.Lex.rel hab
      · by_cases hba : b < a
        · simp only [charListLt, hab, if_false, hba, if_true, Bool.false_eq_true, false_iff]
          intro hlex
          cases hlex with
          | cons h => exact lt_irrefl a hba
          | rel h => exact hab h
        · have heq : a = b := le_antisymm (not_lt.mp hba) (not_lt.mp hab)
          subst heq
          simp only [charListLt, lt_irrefl, if_false, ih]
          exact (List.Lex.cons_iff (r := (· < ·))).symm

theorem strLt_iff (x y : String) : strLt x y = true ↔ x < y := by
  rw [strLt, charListLt_iff_lex, String.lt_iff_toList_lt]
  exact Iff.rfl

theorem strLe_iff (x y : String) : strLe x y = true ↔ x ≤ y := by
  have hrfl : strLe x y = !(strLt y x) := rfl
  constructor
  · intro h
    rw [hrfl, Bool.not_eq_true'] at h
    refine not_lt.mp (fun hc => ?_)
    rw [(strLt_iff y x).mpr hc] at h
    cases h
  · intro h
    rw [hrfl, Bool.not_eq_true']
    rcases hb : strLt y x with _ | _
    · rfl
    · exact absurd ((strLt_iff y x).mp hb) (not_lt.mpr h)

instance strLeRelTrans : IsTrans String (fun a b => strLe a b = true) where
  trans a b c hab hbc :=
    (strLe_iff a c).mpr (le_trans ((strLe_iff a b).mp hab) ((strLe_iff b c).mp hbc))

instance strLeRelTotal : IsTotal String (fun a b => strLe a b = true) where
  total a b := by
    rcases le_total a b with h | h
    · exact Or.inl ((strLe_iff a b).mpr h)
    · exact Or.inr ((strLe_iff b a).mpr h)

instance strLeRelAntisymm : IsAntisymm String (fun a b => strLe a b = true) where
  antisymm a b hab hba := le_antisymm ((strLe_iff a b).mp hab) ((strLe_iff b a).mp hba)

/-- Sorting any two enumerations of the same key multiset gives the same
list: the content of `sort.Strings` determinism. -/
theorem sortStrings_eq_of_perm {l₁ l₂ : List String} (h : l₁.Perm l₂) :
    sortStrings l₁ = sortStrings l₂ := by
  apply List.eq_of_perm_of_sorted
    (r := fun a b => strLe a b = true)
  · exact (List.perm_insertionSort _ l₁).trans (h.trans (List.perm_insertionSort _ l₂).symm)
  · exact List.sorted_insertionSort _ l₁
  · exact List.sorted_insertionSort _ l₂

/-! ## The comparator decides a lexicographic linear order -/

theorem shouldSwap_iff (a b : MethodInfo) :
    shouldSwap a b = true ↔ lexKey b < lexKey a := by
  unfold shouldSwap lexKey MethodInfo.sortKey
  simp only [ne_eq]
  by_cases h1 : a.receiverName = b.receiverName
  · simp only [h1, not_true_eq_false, if_false, Prod.Lex.lt_iff, lt_self_iff_false, true_and,
      false_or]
    by_cases h2 : a.isExported = b.isExported
    · simp only [h2, not_true_eq_false, if_false, Prod.Lex.lt_iff, lt_self_iff_false, true_and,
        false_or, Bool.not_inj_iff]
      by_cases h3 : a.maxDepth = b.maxDepth
      · simp only [h3, not_true_eq_false, if_false, Prod.Lex.lt_iff, lt_self_iff_false, true_and,
          false_or]
        by_cases h4 : a.inDegree = b.inDegree
        · simp only [h4, not_true_eq_false, if_false, Prod.Lex.lt_iff, lt_self_iff_false,
            true_and, false_or, neg_inj, decide_eq_true_eq]
        · simp only [h4, not_false_eq_true, if_true, Prod.Lex.lt_iff, decide_eq_true_eq,
            neg_lt_neg_iff, neg_inj]
          constructor
          · intro h
            exact Or.inl h
          · rintro (h | ⟨heq, _⟩)
            · exact h
            · exact absurd heq.symm h4
      · simp only [h3, not_false_eq_true, if_true, Prod.Lex.lt_iff, decide_eq_true_eq]
        constructor
        · intro h
          exact Or.inl h
        · rintro (h | ⟨heq, _⟩)
          · exact h
          · exact absurd heq.symm h3
    · simp only [h2, not_false_eq_true, if_true, Prod.Lex.lt_iff]
      cases ha : a.isExported <;> cases hb : b.isExported <;>
        simp_all [Bool.lt_iff]
  · simp only [h1, not_false_eq_true, if_true, Prod.Lex.lt_iff, strLt_iff]
    constructor
    · intro h
      exact Or.inl h
    · rintro (h | ⟨heq, _⟩)
      · exact h
      · exact absurd heq.symm h1

theorem shouldSwap_eq_false_iff (a b : MethodInfo) :
    shouldSwap a b = false ↔ lexKey a ≤ lexKey b := by
  rw [← not_lt, ← shouldSwap_iff]
  cases shouldSwap a b <;> simp

/-! ## Correctness of the bubble sort -/

theorem bubblePassN_zero (l : List MethodInfo) : bubblePassN 0 l = l := by
  match l with
  | [] => rfl
  | [a] => rfl
  | a :: b :: rest => rfl

theorem bubblePassN_perm (k : Nat) (l : List MethodInfo) :
    List.Perm (bubblePassN k l) l := by
  induction k generalizing l with
  | zero => rw [bubblePassN_zero]
  | succ k ih =>
    match l with
    | [] => exact List.Perm.refl _
    | [a] => exact List.Perm.refl _
    | a :: b :: rest =>
      show List.Perm (if shouldSwap a b then b :: bubblePassN k (a :: rest)
        else a :: bubblePassN k (b :: rest)) (a :: b :: rest)
      cases h : shouldSwap a b with
      | true =>
        simp only [if_true]
        exact ((ih (a :: rest)).cons b).trans (List.Perm.swap a b rest)
      | false =>
        simp only [Bool.false_eq_true, if_false]
        exact (ih (b :: rest)).cons a

theorem bubblePassN_append (k : Nat) (front back : List MethodInfo)
    (h : front.length = k + 1) :
    bubblePassN k (front ++ back) = bubblePassN k front ++ back := by
  induction k generalizing front with
  | zero =>
    match front, h with
    | [a], _ =>
      rw [bubblePassN_zero]
      match back with
      | [] => rfl
      | c :: cs => rfl
  | succ k ih =>
    match front, h with
    | a :: front', h =>
      have h' : front'.length = k + 1 := by simpa using h
      match front', h' with
      | c :: rest', h' =>
        show (if shouldSwap a c then c :: bubblePassN k ((a :: rest') ++ back)
            else a :: bubblePassN k ((c :: rest') ++ back)) =
          (if shouldSwap a c then c :: bubblePassN k (a :: rest')
            else a :: bubblePassN k (c :: rest')) ++ back
        have hl : (a :: rest').length = k + 1 := by simpa using h'
        cases hs : shouldSwap a c with
        | true =>
          have ihh := ih (a :: rest') hl
          rw [List.cons_append] at ihh
          simp [hs, ihh]
        | false =>
          have ihh := ih (c :: rest') h'
          rw [List.cons_append] at ihh
          simp [hs, ihh]

theorem bubblePassN_last (k : Nat) (l : List MethodInfo) (hne : l ≠ [])
    (hk : l.length ≤ k + 1) :
    ∃ l' m, bubblePassN k l = l' ++ [m] ∧ ∀ x ∈ l, lexKey x ≤ lexKey m := by
  induction k generalizing l with
  | zero =>
    match l, hne with
    | [a], _ =>
      exact ⟨[], a, by simp [bubblePassN_zero], by intro x hx; simp at hx; simp [hx]⟩
    | a :: b :: rest, _ => simp at hk
  | succ k ih =>
    match l, hne with
    | [a], _ =>
      exact ⟨[], a, by simp [bubblePassN], by intro x hx; simp at hx; simp [hx]⟩
    | a :: b :: rest, _ =>
      have hlen : (a :: b :: rest).length ≤ k + 2 := hk
      by_cases hs : shouldSwap a b
      · have hswap : lexKey b ≤ lexKey a := le_of_lt ((shouldSwap_iff a b).mp hs)
        obtain ⟨l', m, heq, hbound⟩ := ih (a :: rest) (by simp) (by simpa using hlen)
        refine ⟨b :: l', m, ?_, ?_⟩
        · show (if shouldSwap a b then b :: bubblePassN k (a :: rest)
            else a :: bubblePassN k (b :: rest)) = (b :: l') ++ [m]
          simp [hs, heq]
        · intro x hx
          rcases List.mem_cons.mp hx with rfl | hx2
          · exact hbound x (by simp)
          · rcases List.mem_cons.mp hx2 with rfl | hx3
            · exact le_trans hswap (hbound a (by simp))
            · exact hbound x (by simp [hx3])
      · have hle : lexKey a ≤ lexKey b :=
          (shouldSwap_eq_false_iff a b).mp (Bool.not_eq_true _ ▸ hs)
        obtain ⟨l', m, heq, hbound⟩ := ih (b :: rest) (by simp) (by simpa using hlen)
        refine ⟨a :: l', m, ?_, ?_⟩
        · show (if shouldSwap a b then b :: bubblePassN k (a :: rest)
            else a :: bubblePassN k (b :: rest)) = (a :: l') ++ [m]
          simp [hs, heq]
        · intro x hx
          rcases List.mem_cons.mp hx with rfl | hx2
          · exact le_trans hle (hbound b (by simp))
          · exact hbound x hx2

theorem bubblePassN_of_chain (k : Nat) (l : List MethodInfo)
    (h : l.Chain' (fun a b => shouldSwap a b = false)) :
    bubblePassN k l = l := by
  induction k generalizing l with
  | zero => exact bubblePassN_zero l
  | succ k ih =>
    match l, h with
    | [], _ => rfl
    | [a], _ => rfl
    | a :: b :: rest, h =>
      have h1 : shouldSwap a b = false := (List.chain'_cons.mp h).1
      have h2 : (b :: rest).Chain' (fun a b => shouldSwap a b = false) :=
        (List.chain'_cons.mp h).2
      show (if shouldSwap a b then b :: bubblePassN k (a :: rest)
        else a :: bubblePassN k (b :: rest)) = a :: b :: rest
      simp [h1, ih (b :: rest) h2]

theorem sortAux_perm (k : Nat) (l : List MethodInfo) : List.Perm (sortAux k l) l := by
  induction k generalizing l with
  | zero => exact List.Perm.refl _
  | succ k ih => exact (ih (bubblePassN (k + 1) l)).trans (bubblePassN_perm (k + 1) l)

theorem sortAux_sorted (k : Nat) :
    ∀ front back : List MethodInfo, front.length = k + 1 →
      back.Pairwise (fun x y => lexKey x ≤ lexKey y) →
      (∀ x ∈ front, ∀ y ∈ back, lexKey x ≤ lexKey y) →
      (sortAux k (front ++ back)).Pairwise (fun x y => lexKey x ≤ lexKey y) := by
  induction k with
  | zero =>
    intro front back hlen hback hbound
    match front, hlen with
    | [a], _ =>
      show (a :: back).Pairwise (fun x y => lexKey x ≤ lexKey y)
      exact List.Pairwise.cons (fun y hy => hbound a (by simp) y hy) hback
  | succ k ih =>
    intro front back hlen hback hbound
    show (sortAux k (bubblePassN (k + 1) (front ++ back))).Pairwise
      (fun x y => lexKey x ≤ lexKey y)
    rw [bubblePassN_append (k + 1) front back hlen]
    obtain ⟨l', m, heq, hmax⟩ :=
      bubblePassN_last (k + 1) front (by rw [← List.length_pos_iff_ne_nil]; omega)
        (le_of_eq hlen)
    rw [heq, List.append_assoc, List.singleton_append]
    have hperm : List.Perm (l' ++ [m]) front := heq ▸ bubblePassN_perm (k + 1) front
    have hmem : ∀ x ∈ l', x ∈ front := by
      intro x hx
      exact hperm.mem_iff.mp (by simp [hx])
    have hmmem : m ∈ front := hperm.mem_iff.mp (by simp)
    have hlen' : l'.length = k + 1 := by
      have := hperm.length_eq
      simp only [List.length_append, List.length_singleton] at this
      omega
    apply ih l' (m :: back) hlen'
    · exact List.Pairwise.cons (fun y hy => hbound m hmmem y hy) hback
    · intro x hx y hy
      rcases List.mem_cons.mp hy with rfl | hy2
      · exact hmax x (hmem x hx)
      · exact hbound x (hmem x hx) y hy2

theorem sortMethods_perm (ms : List MethodInfo) : List.Perm (sortMethods ms) ms :=
  sortAux_perm (ms.length - 1) ms

theorem sortMethods_sorted (ms : List MethodInfo) :
    (sortMethods ms).Pairwise (fun x y => lexKey x ≤ lexKey y) := by
  match ms with
  | [] => exact List.Pairwise.nil
  | a :: rest =>
    have h := sortAux_sorted rest.length (a :: rest) [] (by simp) List.Pairwise.nil
      (by intro x hx y hy; simp at hy)
    rw [List.append_nil] at h
    exact h

theorem sortAux_of_chain (k : Nat) (l : List MethodInfo)
    (h : l.Chain' (fun a b => shouldSwap a b = false)) :
    sortAux k l = l := by
  induction k with
  | zero => rfl
  | succ k ih =>
    show sortAux k (bubblePassN (k + 1) l) = l
    rw [bubblePassN_of_chain (k + 1) l h]
    exact ih

/-- A list already in comparator order is a fixed point of
`sortMethods`. -/
theorem sortMethods_of_chain (ms : List MethodInfo)
    (h : ms.Chain' (fun a b => shouldSwap a b = false)) :
    sortMethods ms = ms :=
  sortAux_of_chain (ms.length - 1) ms h

/-! ## Metrics engine lemmas -/

theorem lookupCalls_key_mem {calls : List (String × List String)} {key : String}
    (h : lookupCalls calls key ≠ []) : key ∈ callsKeys calls := by
  rw [callsKeys, List.mem_toFinset]
  rcases hl : mapLookup calls key with _ | v
  · rw [lookupCalls, hl] at h
    simp at h
  · have : ¬(mapLookup calls key = none) := by simp [hl]
    rw [mapLookup_eq_none_iff] at this
    simpa [mapKeysOf] using Decidable.not_not.mp this

theorem card_sdiff_insert_lt {calls : List (String × List String)}
    {visited : Finset String} {key : String} (hmem : key ∈ callsKeys calls)
    (hnv : key ∉ visited) :
    (callsKeys calls \ insert key visited).card < (callsKeys calls \ visited).card := by
  rw [Finset.sdiff_insert]
  exact Finset.card_erase_lt_of_mem (Finset.mem_sdiff.mpr ⟨hmem, hnv⟩)

theorem calcDepthFuel_stable (calls : List (String × List String)) :
    ∀ f₁ : Nat, ∀ f₂ : Nat, ∀ visited : Finset String, ∀ key : String,
      (callsKeys calls \ visited).card < f₁ → (callsKeys calls \ visited).card < f₂ →
      calcDepthFuel calls f₁ visited key = calcDepthFuel calls f₂ visited key := by
  intro f₁
  induction f₁ with
  | zero => intro f₂ visited key h₁ h₂; omega
  | succ a ih =>
    intro f₂ visited key h₁ h₂
    match f₂ with
    | 0 => omega
    | b + 1 =>
      show (if key ∈ visited then 0 else _) = (if key ∈ visited then 0 else _)
      by_cases hv : key ∈ visited
      · simp [hv]
      · simp only [hv, if_false]
        rcases hts : lookupCalls calls key with _ | ⟨t, ts⟩
        · rfl
        · have hmem : key ∈ callsKeys calls := lookupCalls_key_mem (by rw [hts]; simp)
          have hc := card_sdiff_insert_lt hmem hv
          apply List.foldl_ext
          intro acc x hx
          rw [ih b (insert key visited) x (by omega) (by omega)]

theorem calculateMaxDepth_recurrence (calls : List (String × List String))
    (key : String) (visited : Finset String) :
    calculateMaxDepth calls key visited =
      if key ∈ visited then 0
      else
        (lookupCalls calls key).foldl
          (fun maxDepth t =>
            let depth := calculateMaxDepth calls t (insert key visited)
            if depth + 1 > maxDepth then depth + 1 else maxDepth)
          0 := by
  unfold calculateMaxDepth
  show (if key ∈ visited then 0 else _) = _
  by_cases hv : key ∈ visited
  · simp [hv]
  · simp only [hv, if_false]
    rcases hts : lookupCalls calls key with _ | ⟨t, ts⟩
    · rfl
    · have hmem : key ∈ callsKeys calls := lookupCalls_key_mem (by rw [hts]; simp)
      have hc := card_sdiff_insert_lt hmem hv
      apply List.foldl_ext
      intro acc x hx
      rw [calcDepthFuel_stable calls ((callsKeys calls \ visited).card)
        ((callsKeys calls \ insert key visited).card + 1) (insert key visited) x
        (by omega) (by omega)]

theorem foldl_depth_ge_init (f : String → Int) (ts : List String) (init : Int) :
    init ≤ ts.foldl (fun md t => if f t + 1 > md then f t + 1 else md) init := by
  induction ts generalizing init with
  | nil => exact le_refl _
  | cons t ts ih =>
    refine le_trans ?_ (ih (if f t + 1 > init then f t + 1 else init))
    by_cases h : f t + 1 > init
    · simp only [h, if_true]
      omega
    · simp [h]

theorem foldl_depth_le_bound (f : String → Int) (ts : List String) (init B : Int)
    (hinit : init ≤ B) (hstep : ∀ t ∈ ts, f t + 1 ≤ B) :
    ts.foldl (fun md t => if f t + 1 > md then f t + 1 else md) init ≤ B := by
  induction ts generalizing init with
  | nil => exact hinit
  | cons t ts ih =>
    refine ih (if f t + 1 > init then f t + 1 else init) ?_ ?_
    · by_cases h : f t + 1 > init
      · simpa [h] using hstep t (by simp)
      · simpa [h] using hinit
    · intro x hx
      exact hstep x (by simp [hx])

theorem calcDepthFuel_nonneg (calls : List (String × List String)) :
    ∀ f : Nat, ∀ visited : Finset String, ∀ key : String,
      0 ≤ calcDepthFuel calls f visited key := by
  intro f
  induction f with
  | zero => intro visited key; exact le_refl 0
  | succ a _ =>
    intro visited key
    show 0 ≤ if key ∈ visited then 0 else _
    by_cases hv : key ∈ visited
    · simp [hv]
    · simp only [hv, if_false]
      exact foldl_depth_ge_init _ _ 0

theorem calculateMaxDepth_nonneg (calls : List (String × List String))
    (key : String) (visited : Finset String) :
    0 ≤ calculateMaxDepth calls key visited :=
  calcDepthFuel_nonneg calls _ visited key

theorem ensureAux_cons_head (x : String) (xs : List String) :
    ∃ ys, ensureAux (x :: xs) = x :: ys := by
  match xs with
  | [] => exact ⟨[], rfl⟩
  | next :: rest =>
    by_cases h : ((trimGo x == "\x7d") && startsWithGo (trimGo next) "func ") = true
    · exact ⟨"" :: ensureAux (next :: rest), by simp [ensureAux, h]⟩
    · exact ⟨ensureAux (next :: rest), by simp [ensureAux, h]⟩

theorem ensureAux_chain (lines : List String) :
    List.Chain'
      (fun a b => ¬(trimGo a = "\x7d" ∧ startsWithGo (trimGo b) "func " = true))
      (ensureAux lines) := by
  induction lines with
  | nil => exact List.chain'_nil
  | cons l ls ih =>
    match ls, ih with
    | [], _ => exact List.chain'_singleton l
    | next :: rest, ih =>
      obtain ⟨ys, hys⟩ := ensureAux_cons_head next rest
      by_cases h : ((trimGo l == "\x7d") && startsWithGo (trimGo next) "func ") = true
      · show List.Chain' _ (if _ then l :: "" :: ensureAux (next :: rest)
          else l :: ensureAux (next :: rest))
        rw [if_pos h, hys]
        refine List.chain'_cons.mpr ⟨?_, List.chain'_cons.mpr ⟨?_, hys ▸ ih⟩⟩
        · rintro ⟨-, hstart⟩
          revert hstart
          decide
        · rintro ⟨htrim, -⟩
          revert htrim
          decide
      · show List.Chain' _ (if _ then l :: "" :: ensureAux (next :: rest)
          else l :: ensureAux (next :: rest))
        rw [if_neg h, hys]
        refine List.chain'_cons.mpr ⟨?_, hys ▸ ih⟩
        rintro ⟨htrim, hstart⟩
        exact h (by simp [htrim, hstart])

theorem calculateMaxDepth_le_card (calls : List (String × List String)) :
    ∀ n : Nat, ∀ key : String, ∀ visited : Finset String,
      (callsKeys calls \ visited).card = n →
      calculateMaxDepth calls key visited ≤ n := by
  intro n
  induction n using Nat.strong_induction_on with
  | _ n ih =>
    intro key visited hcard
    rw [calculateMaxDepth_recurrence]
    by_cases hv : key ∈ visited
    · simp only [hv, if_true]
      omega
    · simp only [hv, if_false]
      rcases hts : lookupCalls calls key with _ | ⟨t, ts⟩
      · show (0 : Int) ≤ n
        omega
      · have hmem : key ∈ callsKeys calls := lookupCalls_key_mem (by rw [hts]; simp)
        have hc := card_sdiff_insert_lt hmem hv
        rw [← hts]
        apply foldl_depth_le_bound
        · omega
        · intro x hx
          have hrec := ih ((callsKeys calls \ insert key visited).card) (by omega) x
            (insert key visited) rfl
          omega

/-! ## Acyclic graphs: path irrelevance and memo soundness -/

theorem mapLookup_mem {α : Type} {m : List (String × α)} {k : String} {v : α}
    (h : mapLookup m k = some v) : (k, v) ∈ m := by
  induction m with
  | nil => simp [mapLookup] at h
  | cons p rest ih =>
    by_cases hpk : p.1 = k
    · simp only [mapLookup, hpk, if_true, Option.some.injEq] at h
      subst h
      subst hpk
      simp
    · simp only [mapLookup, hpk, if_false] at h
      simp [ih h]

theorem rank_target {calls : List (String × List String)} {rank : String → Nat}
    (hrank : ∀ p ∈ calls, ∀ t ∈ p.2, rank t < rank p.1)
    {key t : String} (ht : t ∈ lookupCalls calls key) : rank t < rank key := by
  rcases hl : mapLookup calls key with _ | ts
  · rw [lookupCalls, hl] at ht
    simp at ht
  · rw [lookupCalls, hl] at ht
    exact hrank (key, ts) (mapLookup_mem hl) t ht

/-- Path irrelevance on ranked (acyclic) graphs: the visited set does not
influence the depth of a node all of whose ancestors have strictly
larger rank. -/
theorem calculateMaxDepth_path_irrelevant
    {calls : List (String × List String)} {rank : String → Nat}
    (hrank : ∀ p ∈ calls, ∀ t ∈ p.2, rank t < rank p.1) :
    ∀ n : Nat, ∀ key : String, ∀ visited : Finset String, rank key = n →
      (∀ v ∈ visited, rank key < rank v) →
      calculateMaxDepth calls key visited = calculateMaxDepth calls key ∅ := by
  intro n
  induction n using Nat.strong_induction_on with
  | _ n ih =>
    intro key visited hn hvis
    have hkv : key ∉ visited := fun h => lt_irrefl (rank key) (hvis key h)
    rw [calculateMaxDepth_recurrence calls key visited,
      calculateMaxDepth_recurrence calls key ∅]
    simp only [hkv, if_false, Finset.not_mem_empty]
    apply List.foldl_ext
    intro acc t ht
    have htr : rank t < rank key := rank_target hrank ht
    have h1 : calculateMaxDepth calls t (insert key visited) =
        calculateMaxDepth calls t ∅ := by
      refine ih (rank t) (hn ▸ htr) t (insert key visited) rfl ?_
      intro v hv
      rcases Finset.mem_insert.mp hv with rfl | hv2
      · exact htr
      · exact lt_trans htr (hvis v hv2)
    have h2 : calculateMaxDepth calls t (insert key ∅) =
        calculateMaxDepth calls t ∅ := by
      refine ih (rank t) (hn ▸ htr) t (insert key ∅) rfl ?_
      intro v hv
      rcases Finset.mem_insert.mp hv with rfl | hv2
      · exact htr
      · exact absurd hv2 (Finset.not_mem_empty v)
    rw [h1, h2]

theorem calcDepthMemoFuel_succ (calls : List (String × List String)) (f : Nat)
    (visited : Finset String) (memo : List (String × Int)) (key : String) :
    calcDepthMemoFuel calls (f + 1) visited memo key =
      if key ∈ visited then (0, memo)
      else
        match mapLookup memo key with
        | some d => (d, memo)
        | none =>
          let res :=
            (lookupCalls calls key).foldl (memoStep calls f (insert key visited)) (0, memo)
          (res.1, mapInsert res.2 key res.1) :=
  rfl

/-- Soundness of the memoizing depth computation on ranked graphs: with a
sound memo and a path of strictly larger rank, `calcDepthMemoFuel`
returns the reference depth, keeps the memo sound, never removes
entries, and records its key. -/
theorem calcDepthMemoFuel_sound
    {calls : List (String × List String)} {rank : String → Nat}
    (hrank : ∀ p ∈ calls, ∀ t ∈ p.2, rank t < rank p.1) :
    ∀ fuel : Nat, ∀ key : String, ∀ visited : Finset String,
      ∀ memo : List (String × Int),
      (callsKeys calls \ visited).card < fuel →
      (∀ v ∈ visited, rank key < rank v) →
      memoOK calls memo →
      (calcDepthMemoFuel calls fuel visited memo key).1 =
          calculateMaxDepth calls key ∅ ∧
        memoOK calls (calcDepthMemoFuel calls fuel visited memo key).2 ∧
        (∀ k' : String, (mapLookup memo k').isSome →
          (mapLookup (calcDepthMemoFuel calls fuel visited memo key).2 k').isSome) ∧
        (mapLookup (calcDepthMemoFuel calls fuel visited memo key).2 key).isSome := by
  intro fuel
  induction fuel with
  | zero => intro key visited memo hf; omega
  | succ f ih =>
    intro key visited memo hf hvis hmemo
    have hkv : key ∉ visited := fun h => lt_irrefl (rank key) (hvis key h)
    rcases hmk : mapLookup memo key with _ | d
    · -- no memo entry: compute through the fold
      have heq : calcDepthMemoFuel calls (f + 1) visited memo key =
          ((((lookupCalls calls key).foldl
              (memoStep calls f (insert key visited)) (0, memo))).1,
            mapInsert (((lookupCalls calls key).foldl
              (memoStep calls f (insert key visited)) (0, memo))).2 key
              (((lookupCalls calls key).foldl
                (memoStep calls f (insert key visited)) (0, memo))).1) := by
        rw [calcDepthMemoFuel_succ, if_neg hkv, hmk]
      have hfold :
          ∀ ts : List String, (∀ t ∈ ts, t ∈ lookupCalls calls key) →
            ∀ acc : Int × List (String × Int), memoOK calls acc.2 →
            (ts.foldl (memoStep calls f (insert key visited)) acc).1 =
                ts.foldl
                  (fun md t =>
                    let depth := calculateMaxDepth calls t (insert key visited)
                    if depth + 1 > md then depth + 1 else md) acc.1 ∧
              memoOK calls (ts.foldl (memoStep calls f (insert key visited)) acc).2 ∧
              (∀ k' : String, (mapLookup acc.2 k').isSome →
                (mapLookup ((ts.foldl (memoStep calls f (insert key visited)) acc).2) k').isSome) := by
        intro ts
        induction ts with
        | nil => intro hmemts acc hacc; exact ⟨rfl, hacc, fun k' h => h⟩
        | cons t ts ihts =>
          intro hmemts acc hacc
          have htmem : t ∈ lookupCalls calls key := hmemts t (by simp)
          have htr : rank t < rank key := rank_target hrank htmem
          have hvis' : ∀ v ∈ insert key visited, rank t < rank v := by
            intro v hv
            rcases Finset.mem_insert.mp hv with rfl | hv2
            · exact htr
            · exact lt_trans htr (hvis v hv2)
          have hcard2 : (callsKeys calls \ insert key visited).card < f := by
            have hmem : key ∈ callsKeys calls := lookupCalls_key_mem (by
              intro hl
              rw [hl] at htmem
              exact absurd htmem (List.not_mem_nil t))
            have := card_sdiff_insert_lt hmem hkv
            omega
          have hrec := ih t (insert key visited) acc.2 hcard2 hvis' hacc
          obtain ⟨hval, hok, hmono, _⟩ := hrec
          have hpath := calculateMaxDepth_path_irrelevant hrank (rank t) t
            (insert key visited) rfl hvis'
          obtain ⟨hv1, hv2, hv3⟩ := ihts (fun x hx => hmemts x (by simp [hx]))
            (memoStep calls f (insert key visited) acc t) (by
              show memoOK calls (calcDepthMemoFuel calls f (insert key visited) acc.2 t).2
              exact hok)
          refine ⟨?_, hv2, ?_⟩
          · rw [List.foldl_cons, List.foldl_cons, hv1]
            show _ = List.foldl _
              (if calculateMaxDepth calls t (insert key visited) + 1 > acc.1
                then calculateMaxDepth calls t (insert key visited) + 1 else acc.1) ts
            rw [show (memoStep calls f (insert key visited) acc t).1 =
              (if (calcDepthMemoFuel calls f (insert key visited) acc.2 t).1 + 1 > acc.1
                then (calcDepthMemoFuel calls f (insert key visited) acc.2 t).1 + 1
                else acc.1) from rfl, hval, hpath]
          · intro k' hk'
            refine hv3 k' ?_
            show (mapLookup (calcDepthMemoFuel calls f (insert key visited) acc.2 t).2 k').isSome
            exact hmono k' hk'
      have hD : calculateMaxDepth calls key ∅ =
          (lookupCalls calls key).foldl
            (fun md t =>
              let depth := calculateMaxDepth calls t (insert key visited)
              if depth + 1 > md then depth + 1 else md) 0 := by
        rw [calculateMaxDepth_recurrence]
        simp only [Finset.not_mem_empty, if_false]
        apply List.foldl_ext
        intro acc t ht
        have htr : rank t < rank key := rank_target hrank ht
        have h1 : calculateMaxDepth calls t (insert key ∅) =
            calculateMaxDepth calls t ∅ := by
          refine calculateMaxDepth_path_irrelevant hrank (rank t) t (insert key ∅) rfl ?_
          intro v hv
          rcases Finset.mem_insert.mp hv with rfl | hv2
          · exact htr
          · exact absurd hv2 (Finset.not_mem_empty v)
        have h2 : calculateMaxDepth calls t (insert key visited) =
            calculateMaxDepth calls t ∅ := by
          refine calculateMaxDepth_path_irrelevant hrank (rank t) t
            (insert key visited) rfl ?_
          intro v hv
          rcases Finset.mem_insert.mp hv with rfl | hv2
          · exact htr
          · exact lt_trans htr (hvis v hv2)
        rw [h1, h2]
      obtain ⟨hf1, hf2, hf3⟩ :=
        hfold (lookupCalls calls key) (fun t ht => ht) (0, memo) hmemo
      rw [heq]
      refine ⟨?_, ?_, ?_, ?_⟩
      · simpa [hD] using hf1
      · intro k' d' hk'
        simp only [mapLookup_mapInsert] at hk'
        by_cases hkk : k' = key
        · rw [if_pos hkk] at hk'
          simp only [Option.some.injEq] at hk'
          subst hk'
          rw [hkk, hf1, ← hD]
        · rw [if_neg hkk] at hk'
          exact hf2 k' d' hk'
      · intro k' hk'
        simp only [mapLookup_mapInsert]
        by_cases hkk : k' = key <;> simp [hkk, hf3 k' hk']
      · simp [mapLookup_mapInsert]
    · -- memo hit: the recorded value is the reference depth by soundness
      have heq : calcDepthMemoFuel calls (f + 1) visited memo key = (d, memo) := by
        rw [calcDepthMemoFuel_succ, if_neg hkv, hmk]
      rw [heq]
      exact ⟨hmemo key d hmk, hmemo, fun k' h => h, by simp [hmk]⟩

theorem calculateDepthAll_aux
    {calls : List (String × List String)} {rank : String → Nat}
    (hrank : ∀ p ∈ calls, ∀ t ∈ p.2, rank t < rank p.1) :
    ∀ ks : List String, ∀ memo : List (String × Int), memoOK calls memo →
      memoOK calls (ks.foldl (fun memo k => (calcDepthMemo calls k ∅ memo).2) memo) ∧
      (∀ k' : String, (mapLookup memo k').isSome →
        (mapLookup (ks.foldl (fun memo k => (calcDepthMemo calls k ∅ memo).2) memo) k').isSome) ∧
      (∀ k ∈ ks,
        (mapLookup (ks.foldl (fun memo k => (calcDepthMemo calls k ∅ memo).2) memo) k).isSome) := by
  intro ks
  induction ks with
  | nil =>
    intro memo hmemo
    exact ⟨hmemo, fun k' h => h, by simp⟩
  | cons k0 ks ih =>
    intro memo hmemo
    have hsound := calcDepthMemoFuel_sound hrank ((callsKeys calls \ ∅).card + 1) k0 ∅ memo
      (by omega) (by simp) hmemo
    obtain ⟨-, hok, hmono, hpres⟩ := hsound
    obtain ⟨ih1, ih2, ih3⟩ := ih (calcDepthMemo calls k0 ∅ memo).2 hok
    refine ⟨ih1, ?_, ?_⟩
    · intro k' hk'
      exact ih2 k' (hmono k' hk')
    · intro k hkmem
      rcases List.mem_cons.mp hkmem with rfl | hk2
      · exact ih2 k hpres
      · exact ih3 k hk2

/-! ## Claim C5, amended -/

/-- Claim C5 amended: on every *acyclic* call graph — one admitting a
topological rank, every edge leading to a strictly smaller rank — the
memoizing depth computation of the go/ast `CalculateMetrics`
(`calculateDepthAll`, memo shared across starting nodes) assigns every
processed node exactly the unmemoized per-traversal-path reference depth
(`calculateMaxDepth` with a fresh empty visited set), whatever the
processing order `ks`; the right-hand side does not depend on `ks`, so
the results are independent of the order in which starting nodes are
processed.  (On cyclic graphs this fails: `c5_counterexample`.) -/
theorem c5_amended (calls : List (String × List String)) (rank : String → Nat)
    (hrank : ∀ p ∈ calls, ∀ t ∈ p.2, rank t < rank p.1)
    (ks : List String) (k : String) (hk : k ∈ ks) :
    mapLookup (calculateDepthAll calls ks) k =
      some (calculateMaxDepth calls k ∅) := by
  obtain ⟨hok, -, hall⟩ := calculateDepthAll_aux hrank ks [] (by intro k d h; simp [mapLookup] at h)
  have hsome := hall k hk
  rcases hlk : mapLookup (ks.foldl (fun memo k => (calcDepthMemo calls k ∅ memo).2) []) k
    with _ | d
  · rw [hlk] at hsome; simp at hsome
  · rw [calculateDepthAll]
    rw [hlk, hok k d hlk]

/-- Witness for `c5_amended`: the acyclic chain `A → B` with rank
`A ↦ 1, B ↦ 0`, processed in order `[A, B]`. -/
theorem c5_witness :
    mapLookup (calculateDepthAll c5AcyclicCalls ["A", "B"]) "B" =
      some (calculateMaxDepth c5AcyclicCalls "B" ∅) :=
  c5_amended c5AcyclicCalls c5Rank (by decide) ["A", "B"] "B" (by decide)

/-! ## Pointwise characterisation of `CalculateMetricsE` -/

theorem foldUpdate_lookup_not_mem (F : String → MethodInfo → MethodInfo) :
    ∀ keys : List String, ∀ ms : List (String × MethodInfo), ∀ k : String, k ∉ keys →
      mapLookup
        (keys.foldl
          (fun ms key =>
            match mapLookup ms key with
            | some m => mapInsert ms key (F key m)
            | none => ms) ms) k = mapLookup ms k := by
  intro keys
  induction keys with
  | nil => intro ms k _; rfl
  | cons key0 keys ih =>
    intro ms k hk
    have hk0 : k ≠ key0 := fun h => hk (by simp [h])
    have hks : k ∉ keys := fun h => hk (by simp [h])
    rw [List.foldl_cons, ih _ k hks]
    rcases h0 : mapLookup ms key0 with _ | m
    · rfl
    · rw [mapLookup_mapInsert, if_neg hk0]

theorem foldUpdate_lookup (F : String → MethodInfo → MethodInfo) :
    ∀ keys : List String, ∀ ms : List (String × MethodInfo), ∀ k : String, keys.Nodup →
      mapLookup
        (keys.foldl
          (fun ms key =>
            match mapLookup ms key with
            | some m => mapInsert ms key (F key m)
            | none => ms) ms) k =
        if k ∈ keys then (mapLookup ms k).map (F k) else mapLookup ms k := by
  intro keys
  induction keys with
  | nil => intro ms k _; simp
  | cons key0 keys ih =>
    intro ms k hnd
    rw [List.foldl_cons]
    by_cases hk0 : k = key0
    · subst hk0
      have hks : k ∉ keys := (List.nodup_cons.mp hnd).1
      rw [foldUpdate_lookup_not_mem F keys _ k hks]
      rcases h0 : mapLookup ms k with _ | m
      · simp [h0]
      · rw [mapLookup_mapInsert, if_pos rfl]
        simp
    · rw [ih _ k (List.nodup_cons.mp hnd).2]
      have hlook :
          mapLookup
            (match mapLookup ms key0 with
              | some m => mapInsert ms key0 (F key0 m)
              | none => ms) k = mapLookup ms k := by
        rcases h0 : mapLookup ms key0 with _ | m
        · rfl
        · rw [mapLookup_mapInsert, if_neg hk0]
      rw [hlook]
      simp [hk0]

theorem calculateMetricsE_lookup (cg : CallGraph) (e : List String) (k : String)
    (hnd : (sortStrings e).Nodup) :
    mapLookup (CalculateMetricsE cg e).methods k =
      if k ∈ sortStrings e then
        (mapLookup cg.methods k).map
          (fun m =>
            { m with
              maxDepth := calculateMaxDepth cg.calls k ∅
              inDegree := (mapLookup (inDegreeMap cg (sortStrings e)) k).getD 0 })
      else mapLookup cg.methods k := by
  exact foldUpdate_lookup _ (sortStrings e) cg.methods k hnd

theorem bump_fold_nonneg (cs : List String) :
    ∀ ind : List (String × Int), (∀ k : String, 0 ≤ (mapLookup ind k).getD 0) →
      ∀ k : String,
        0 ≤ (mapLookup (cs.foldl
          (fun m t => mapInsert m t ((mapLookup m t).getD 0 + 1)) ind) k).getD 0 := by
  induction cs with
  | nil => intro ind h k; exact h k
  | cons c cs ih =>
    intro ind h k
    refine ih _ ?_ k
    intro k'
    rw [mapLookup_mapInsert]
    by_cases hk : k' = c
    · rw [if_pos hk]
      have := h c
      simp only [Option.getD_some]
      omega
    · rw [if_neg hk]
      exact h k'

theorem inDegreeMap_nonneg (cg : CallGraph) (keys : List String) (k : String) :
    0 ≤ (mapLookup (inDegreeMap cg keys) k).getD 0 := by
  rw [inDegreeMap]
  generalize hstart : ([] : List (String × Int)) = start
  have hbase : ∀ k' : String, 0 ≤ (mapLookup start k').getD 0 := by
    intro k'
    rw [← hstart]
    simp [mapLookup]
  clear hstart
  induction keys generalizing start with
  | nil => exact hbase k
  | cons key0 keys ih =>
    rw [List.foldl_cons]
    rcases h0 : mapLookup cg.calls key0 with _ | cs
    · exact ih _ hbase
    · exact ih _ (fun k' => bump_fold_nonneg cs start hbase k')

/-! ## Claim C4 -/

/-- Claim C4: `CalculateMetrics` (current generation, with any map
iteration order `e` that enumerates distinct keys) always terminates —
`calculateMaxDepth` is a total function whose defining cycle-suppressing
recurrence is `calculateMaxDepth_recurrence` — and every record it
produces carries a non-negative in-degree and a non-negative max depth,
which is additionally bounded by the number of nodes with outgoing
edges, is `0` when the node has no outgoing edges, and is otherwise `1`
plus the maximum of its targets' depths (computed along the traversal
path with the node itself marked visited, so a re-entering edge
contributes `0`). -/
theorem c4_metrics_total_nonneg (cg : CallGraph) (e : List String) (k : String)
    (m : MethodInfo) (hnd : (sortStrings e).Nodup)
    (hm : mapLookup (CalculateMetricsE cg e).methods k = some m)
    (hke : k ∈ sortStrings e) :
    0 ≤ m.inDegree ∧ 0 ≤ m.maxDepth ∧
      m.maxDepth ≤ ((callsKeys cg.calls).card : Int) ∧
      (lookupCalls cg.calls k = [] → m.maxDepth = 0) ∧
      (∀ t0 : String, ∀ ts : List String, lookupCalls cg.calls k = t0 :: ts →
        m.maxDepth =
          1 + ts.foldl
            (fun md t => max md (calculateMaxDepth cg.calls t (insert k ∅)))
            (calculateMaxDepth cg.calls t0 (insert k ∅))) := by
  rw [calculateMetricsE_lookup cg e k hnd, if_pos hke] at hm
  rcases h0 : mapLookup cg.methods k with _ | m0
  · rw [h0] at hm; simp at hm
  · rw [h0] at hm
    simp only [Option.map_some', Option.some.injEq] at hm
    subst hm
    refine ⟨inDegreeMap_nonneg cg (sortStrings e) k, ?_, ?_, ?_, ?_⟩
    · show (0 : Int) ≤ calculateMaxDepth cg.calls k ∅
      exact calculateMaxDepth_nonneg _ _ _
    · show calculateMaxDepth cg.calls k ∅ ≤ _
      have := calculateMaxDepth_le_card cg.calls ((callsKeys cg.calls \ ∅).card) k ∅ rfl
      simpa using this
    · intro hempty
      show calculateMaxDepth cg.calls k ∅ = 0
      rw [calculateMaxDepth_recurrence]
      simp [hempty]
    · intro t0 ts hts
      show calculateMaxDepth cg.calls k ∅ =
        1 + ts.foldl (fun md t => max md (calculateMaxDepth cg.calls t (insert k ∅)))
          (calculateMaxDepth cg.calls t0 (insert k ∅))
      rw [calculateMaxDepth_recurrence]
      simp only [Finset.not_mem_empty, if_false, hts]
      have hmaxstep : ∀ md x : Int, (if x + 1 > md then x + 1 else md) = max md (x + 1) := by
        intro md x
        rcases le_or_lt (x + 1) md with h | h
        · rw [max_eq_left h, if_neg (by omega)]
        · rw [max_eq_right (le_of_lt h), if_pos (by omega)]
      have hshift : ∀ us : List String, ∀ init : Int,
          us.foldl (fun md t => max md
            (calculateMaxDepth cg.calls t (insert k ∅) + 1)) (init + 1) =
          1 + us.foldl (fun md t => max md
            (calculateMaxDepth cg.calls t (insert k ∅))) init := by
        intro us
        induction us with
        | nil =>
          intro init
          simp only [List.foldl_nil]
          omega
        | cons u us ihu =>
          intro init
          rw [List.foldl_cons, List.foldl_cons, max_add_add_right]
          exact ihu _
      rw [List.foldl_cons]
      rw [show (fun md t =>
          let depth := calculateMaxDepth cg.calls t (insert k ∅)
          if depth + 1 > md then depth + 1 else md) = fun md t => max md
          (calculateMaxDepth cg.calls t (insert k ∅) + 1) from funext fun md =>
          funext fun t => hmaxstep md _]
      rw [hmaxstep 0 (calculateMaxDepth cg.calls t0 (insert k ∅))]
      have h00 : max (0 : Int) (calculateMaxDepth cg.calls t0 (insert k ∅) + 1) =
          calculateMaxDepth cg.calls t0 (insert k ∅) + 1 :=
        max_eq_right (by have := calculateMaxDepth_nonneg cg.calls t0 (insert k ∅); omega)
      rw [h00, hshift]

/-- Witness for `c4_metrics_total_nonneg`: the 2-cycle
`methodA ⇄ methodB` terminates with finite non-negative metrics. -/
theorem c4_witness :
    0 ≤ c4Record.inDegree ∧ 0 ≤ c4Record.maxDepth ∧
      c4Record.maxDepth ≤ ((callsKeys c4CG.calls).card : Int) ∧
      (lookupCalls c4CG.calls (methodKey "Server" "methodA") = [] →
        c4Record.maxDepth = 0) ∧
      (∀ t0 : String, ∀ ts : List String,
        lookupCalls c4CG.calls (methodKey "Server" "methodA") = t0 :: ts →
        c4Record.maxDepth =
          1 + ts.foldl
            (fun md t => max md
              (calculateMaxDepth c4CG.calls t (insert (methodKey "Server" "methodA") ∅)))
            (calculateMaxDepth c4CG.calls t0
              (insert (methodKey "Server" "methodA") ∅))) :=
  c4_metrics_total_nonneg c4CG (mapKeysOf c4CG.methods) (methodKey "Server" "methodA")
    c4Record (by decide) (by decide) (by decide)

/-! ## Characterisation of the edge pass -/

theorem extractMethodInfo_position (f : FuncDecl) (p : Int) :
    extractMethodInfo f p =
      (extractMethodInfo f 0).map (fun m => { m with position := p }) := by
  unfold extractMethodInfo
  rcases f.recv with _ | ⟨_ | ⟨⟨names, ty⟩, rest⟩⟩
  · rfl
  · rfl
  · cases ty <;> rfl

theorem AddCall_methods (cg : CallGraph) (a b c d : String) :
    (AddCall cg a b c d).methods = cg.methods := by
  unfold AddCall
  by_cases h : (mapLookup cg.methods (methodKey c d)).isSome <;> simp [h]

theorem AddCall_calls_lookup (cg : CallGraph) (fr fm tr tm k : String) :
    lookupCalls (AddCall cg fr fm tr tm).calls k =
      lookupCalls cg.calls k ++
        (if k = methodKey fr fm ∧ (mapLookup cg.methods (methodKey tr tm)).isSome = true
          then [methodKey tr tm] else []) := by
  by_cases hknown : (mapLookup cg.methods (methodKey tr tm)).isSome
  · simp only [AddCall, hknown, if_true, lookupCalls, mapLookup_mapInsert]
    by_cases hk : k = methodKey fr fm
    · simp [hk]
    · simp [hk]
  · simp [AddCall, hknown, lookupCalls]

theorem visitBody_methods (r n : String) (sites : List CallSite) (cg : CallGraph) :
    (visitBody r n sites cg).methods = cg.methods := by
  induction sites generalizing cg with
  | nil => rfl
  | cons s rest ih =>
    show (visitBody r n rest _).methods = _
    by_cases h : identMatches r s.xName
    · rw [if_pos h, ih, AddCall_methods]
    · rw [if_neg h, ih]

theorem bodyEdges_cons (ms : List (String × MethodInfo)) (r : String) (s : CallSite)
    (rest : List CallSite) :
    bodyEdges ms r (s :: rest) =
      (if (identMatches r s.xName && (mapLookup ms (methodKey r s.selName)).isSome) = true
        then [methodKey r s.selName] else []) ++ bodyEdges ms r rest := by
  show List.filterMap _ (s :: rest) = _
  rw [List.filterMap_cons]
  by_cases hc : (identMatches r s.xName && (mapLookup ms (methodKey r s.selName)).isSome) = true
  · rw [if_pos hc]
    rw [if_pos hc]
    rfl
  · rw [if_neg hc]
    rw [if_neg hc]
    rfl

theorem visitBody_calls_lookup (r n : String) (sites : List CallSite) (cg : CallGraph)
    (k : String) :
    lookupCalls (visitBody r n sites cg).calls k =
      lookupCalls cg.calls k ++
        (if k = methodKey r n then bodyEdges cg.methods r sites else []) := by
  induction sites generalizing cg with
  | nil => simp [visitBody, bodyEdges]
  | cons s rest ih =>
    show lookupCalls (visitBody r n rest _).calls k = _
    by_cases h : identMatches r s.xName
    · rw [if_pos h, ih, AddCall_methods, AddCall_calls_lookup, bodyEdges_cons]
      by_cases hk : k = methodKey r n <;>
        by_cases hknown : (mapLookup cg.methods (methodKey r s.selName)).isSome = true <;>
        simp [hk, hknown, h]
    · rw [if_neg h, ih, bodyEdges_cons]
      by_cases hk : k = methodKey r n <;> simp [hk, h]

theorem collectCalls_methods (decls : List Decl) (cg : CallGraph) :
    (collectCalls decls cg).methods = cg.methods := by
  induction decls generalizing cg with
  | nil => rfl
  | cons d rest ih =>
    match d with
    | .genD t => exact ih cg
    | .funcD f =>
      show (match extractMethodInfo f 0 with
        | some m =>
          match f.body with
          | some sites => collectCalls rest (visitBody m.receiverName m.name sites cg)
          | none => collectCalls rest cg
        | none => collectCalls rest cg).methods = cg.methods
      rcases hm : extractMethodInfo f 0 with _ | m
      · exact ih cg
      · rcases hb : f.body with _ | sites
        · exact ih cg
        · rw [ih, visitBody_methods]

theorem collectCalls_calls_lookup (decls : List Decl) (cg : CallGraph) (k : String) :
    lookupCalls (collectCalls decls cg).calls k =
      lookupCalls cg.calls k ++ declsEdges cg.methods decls k := by
  induction decls generalizing cg with
  | nil => simp [collectCalls, declsEdges]
  | cons d rest ih =>
    match d with
    | .genD t =>
      show lookupCalls (collectCalls rest cg).calls k = _
      rw [ih]
      rfl
    | .funcD f =>
      show lookupCalls (match extractMethodInfo f 0 with
        | some m =>
          match f.body with
          | some sites => collectCalls rest (visitBody m.receiverName m.name sites cg)
          | none => collectCalls rest cg
        | none => collectCalls rest cg).calls k = _
      rcases hm : extractMethodInfo f 0 with _ | m
      · rw [ih]
        show _ = _ ++ declsEdges cg.methods (Decl.funcD f :: rest) k
        simp [declsEdges, hm]
      · rcases hb : f.body with _ | sites
        · rw [ih]
          show _ = _ ++ declsEdges cg.methods (Decl.funcD f :: rest) k
          simp [declsEdges, hm, hb]
        · rw [ih, visitBody_methods, visitBody_calls_lookup]
          show _ = _ ++ declsEdges cg.methods (Decl.funcD f :: rest) k
          simp only [declsEdges, hm, hb, List.append_assoc]

theorem key_mem_declKeys {ds : List Decl} {f : FuncDecl} {m : MethodInfo}
    (hf : Decl.funcD f ∈ ds) (hm : extractMethodInfo f 0 = some m) :
    methodKey m.receiverName m.name ∈ declKeys ds := by
  induction ds with
  | nil => simp at hf
  | cons d rest ih =>
    rcases List.mem_cons.mp hf with heq | hmem
    · subst heq
      show methodKey m.receiverName m.name ∈
        (match extractMethodInfo f 0 with
          | some m0 => methodKey m0.receiverName m0.name :: declKeys rest
          | none => declKeys rest)
      rw [hm]
      simp
    · match d with
      | .genD t => exact ih hmem
      | .funcD g =>
        show methodKey m.receiverName m.name ∈
          (match extractMethodInfo g 0 with
            | some m0 => methodKey m0.receiverName m0.name :: declKeys rest
            | none => declKeys rest)
        rcases hg : extractMethodInfo g 0 with _ | mg
        · exact ih hmem
        · simp [ih hmem]

theorem declsEdges_not_mem (ms : List (String × MethodInfo)) :
    ∀ ds : List Decl, ∀ k : String, k ∉ declKeys ds → declsEdges ms ds k = [] := by
  intro ds
  induction ds with
  | nil => intro k _; rfl
  | cons d rest ih =>
    intro k hk
    match d with
    | .genD t => exact ih k hk
    | .funcD f =>
      show (match extractMethodInfo f 0, f.body with
        | some m, some sites =>
          if k = methodKey m.receiverName m.name then bodyEdges ms m.receiverName sites
          else []
        | some _, none => []
        | none, _ => []) ++ declsEdges ms rest k = []
      rcases hm : extractMethodInfo f 0 with _ | m
      · rw [List.nil_append]
        refine ih k ?_
        revert hk
        show k ∉ declKeys (Decl.funcD f :: rest) → _
        simp [declKeys, hm]
      · have hk' : k ∉ declKeys rest ∧ k ≠ methodKey m.receiverName m.name := by
          revert hk
          show k ∉ declKeys (Decl.funcD f :: rest) → _
          simp only [declKeys, hm, List.mem_cons, not_or]
          tauto
        rcases hb : f.body with _ | sites
        · rw [List.nil_append]
          exact ih k hk'.1
        · show (if k = methodKey m.receiverName m.name
              then bodyEdges ms m.receiverName sites else []) ++ declsEdges ms rest k = []
          rw [if_neg hk'.2, List.nil_append]
          exact ih k hk'.1

theorem declsEdges_unique (ms : List (String × MethodInfo)) :
    ∀ ds : List Decl, (declKeys ds).Nodup →
      ∀ f : FuncDecl, ∀ m : MethodInfo, ∀ sites : List CallSite,
        Decl.funcD f ∈ ds → extractMethodInfo f 0 = some m → f.body = some sites →
        declsEdges ms ds (methodKey m.receiverName m.name) =
          bodyEdges ms m.receiverName sites := by
  intro ds
  induction ds with
  | nil => intro _ f m sites hf; simp at hf
  | cons d rest ih =>
    intro hnd f m sites hf hm hb
    rcases List.mem_cons.mp hf with heq | hmem
    · subst heq
      have hnd' : methodKey m.receiverName m.name ∉ declKeys rest := by
        revert hnd
        show (declKeys (Decl.funcD f :: rest)).Nodup → _
        simp only [declKeys, hm]
        exact fun h => (List.nodup_cons.mp h).1
      show (match extractMethodInfo f 0, f.body with
        | some m0, some sites0 =>
          if methodKey m.receiverName m.name = methodKey m0.receiverName m0.name
          then bodyEdges ms m0.receiverName sites0 else []
        | some _, none => []
        | none, _ => []) ++ declsEdges ms rest (methodKey m.receiverName m.name) =
        bodyEdges ms m.receiverName sites
      rw [hm, hb]
      show (if methodKey m.receiverName m.name = methodKey m.receiverName m.name
          then bodyEdges ms m.receiverName sites else []) ++
          declsEdges ms rest (methodKey m.receiverName m.name) =
        bodyEdges ms m.receiverName sites
      rw [if_pos rfl, declsEdges_not_mem ms rest _ hnd', List.append_nil]
    · match d with
      | .genD t =>
        exact ih hnd f m sites hmem hm hb
      | .funcD g =>
        rcases hg : extractMethodInfo g 0 with _ | mg
        · show (match extractMethodInfo g 0, g.body with
            | some m0, some sites0 => _ | some _, none => _ | none, _ => _) ++
              declsEdges ms rest (methodKey m.receiverName m.name) = _
          rw [hg]
          rw [List.nil_append]
          refine ih ?_ f m sites hmem hm hb
          revert hnd
          show (declKeys (Decl.funcD g :: rest)).Nodup → _
          simp [declKeys, hg]
        · have hknd : (declKeys (Decl.funcD g :: rest)).Nodup := hnd
          have hgrest : methodKey mg.receiverName mg.name ∉ declKeys rest ∧
              (declKeys rest).Nodup := by
            revert hknd
            simp only [declKeys, hg]
            exact fun h => ⟨(List.nodup_cons.mp h).1, (List.nodup_cons.mp h).2⟩
          have hne : methodKey m.receiverName m.name ≠ methodKey mg.receiverName mg.name := by
            intro hcontra
            exact hgrest.1 (hcontra ▸ key_mem_declKeys hmem hm)
          show (match extractMethodInfo g 0, g.body with
            | some m0, some sites0 =>
              if methodKey m.receiverName m.name = methodKey m0.receiverName m0.name
              then bodyEdges ms m0.receiverName sites0 else []
            | some _, none => []
            | none, _ => []) ++ declsEdges ms rest (methodKey m.receiverName m.name) = _
          rw [hg]
          rcases hgb : g.body with _ | gsites
          · rw [List.nil_append]
            exact ih hgrest.2 f m sites hmem hm hb
          · show (if methodKey m.receiverName m.name = methodKey mg.receiverName mg.name
                then bodyEdges ms mg.receiverName gsites else []) ++
                declsEdges ms rest (methodKey m.receiverName m.name) = _
            rw [if_neg hne, List.nil_append]
            exact ih hgrest.2 f m sites hmem hm hb

theorem methodKey_inj_name {r a b : String} (h : methodKey r a = methodKey r b) :
    a = b := by
  have hd : (methodKey r a).data = (methodKey r b).data := congrArg String.data h
  simp only [methodKey, String.data_append] at hd
  exact String.toList_inj.mp (List.append_cancel_left hd)

theorem collectMethods_calls (decls : List Decl) :
    ∀ p : Int, ∀ cg : CallGraph, (collectMethods decls p cg).calls = cg.calls := by
  induction decls with
  | nil => intro p cg; rfl
  | cons d rest ih =>
    intro p cg
    match d with
    | .genD t => exact ih p cg
    | .funcD f =>
      show (match extractMethodInfo f p with
        | some m => collectMethods rest (p + 1) (AddMethod cg m)
        | none => collectMethods rest p cg).calls = cg.calls
      rcases hm : extractMethodInfo f p with _ | m
      · exact ih p cg
      · rw [ih (p + 1) (AddMethod cg m)]
        rfl

/-! ## Claim C2 -/

/-- Claim C2 amended: the code matches the identifier left of the dot
against the receiver *type* name, not the receiver parameter name.  For
a file whose method keys are pairwise distinct, a call edge from a
method to `callee` under the same receiver is recorded if and only if
some call site in the method's body selects `callee` through an
identifier that is `"self"`, or syntactically identical to the
receiver's extracted type name, or a single-byte identifier
case-insensitively matching that type name's first letter
(`identMatches`), and the target key exists among the collected methods
(the target-existence condition applies to all three alternatives). -/
theorem c2_amended (decls : List Decl) (f : FuncDecl) (sites : List CallSite)
    (m : MethodInfo) (callee : String) (hnd : (declKeys decls).Nodup)
    (hf : Decl.funcD f ∈ decls) (hm : extractMethodInfo f 0 = some m)
    (hb : f.body = some sites) :
    methodKey m.receiverName callee ∈
        lookupCalls (buildCallGraph decls).calls (methodKey m.receiverName m.name) ↔
      (∃ s ∈ sites, s.selName = callee ∧ identMatches m.receiverName s.xName = true) ∧
        (mapLookup (collectMethods decls 0 NewCallGraph).methods
          (methodKey m.receiverName callee)).isSome = true := by
  have hcalls : lookupCalls (buildCallGraph decls).calls (methodKey m.receiverName m.name) =
      bodyEdges (collectMethods decls 0 NewCallGraph).methods m.receiverName sites := by
    show lookupCalls
      (collectCalls decls (collectMethods decls 0 NewCallGraph)).calls _ = _
    rw [collectCalls_calls_lookup]
    rw [show lookupCalls (collectMethods decls 0 NewCallGraph).calls
        (methodKey m.receiverName m.name) = [] by
      rw [lookupCalls, collectMethods_calls]
      rfl]
    rw [List.nil_append]
    exact declsEdges_unique _ decls hnd f m sites hf hm hb
  rw [hcalls]
  constructor
  · intro hmem
    obtain ⟨s, hs, hfs⟩ := List.mem_filterMap.mp hmem
    by_cases hc : (identMatches m.receiverName s.xName &&
        (mapLookup (collectMethods decls 0 NewCallGraph).methods
          (methodKey m.receiverName s.selName)).isSome) = true
    · rw [if_pos hc] at hfs
      have hsel : s.selName = callee :=
        methodKey_inj_name (Option.some.inj hfs)
      rcases Bool.and_eq_true_iff.mp hc with ⟨hid, hkn⟩
      exact ⟨⟨s, hs, hsel, hid⟩, hsel ▸ hkn⟩
    · rw [if_neg hc] at hfs
      cases hfs
  · rintro ⟨⟨s, hs, hsel, hid⟩, hknown⟩
    refine List.mem_filterMap.mpr ⟨s, hs, ?_⟩
    rw [if_pos (Bool.and_eq_true_iff.mpr ⟨hid, by rw [hsel]; exact hknown⟩), hsel]

/-- Claim C2 as stated is false: in `c2File` the method `Start`'s
receiver parameter is named `x` and its body calls `x.helper()` with
`helper` a known method of the same receiver group, so the claimed
condition (identifier identical to the receiver parameter name) holds —
yet the code, which compares against the receiver type name `Server`,
records no edge at all for `Start`. -/
theorem c2_counterexample :
    specIntraTypeCallCond "x" "x" = true ∧
    (mapLookup (collectMethods c2File 0 NewCallGraph).methods
      (methodKey "Server" "helper")).isSome = true ∧
    lookupCalls (buildCallGraph c2File).calls (methodKey "Server" "Start") = [] := by
  refine ⟨by decide, by decide, by decide⟩

/-- Witness for `c2_amended`: in `c6File`, `Start` calls `s.helper()`
(single-letter match against receiver type `Server`), so the edge to
`helper` is recorded. -/
theorem c2_witness :
    methodKey "Server" "helper" ∈
      lookupCalls (buildCallGraph c6File).calls (methodKey "Server" "Start") :=
  (c2_amended c6File ⟨0, "Start", some [⟨["s"], .star "Server"⟩],
      some [⟨"s", "helper"⟩, ⟨"s", "helper"⟩]⟩
    [⟨"s", "helper"⟩, ⟨"s", "helper"⟩]
    { name := "Start", receiverName := "Server", receiverType := "*Server",
      isExported := true,
      funcDecl := ⟨0, "Start", some [⟨["s"], .star "Server"⟩],
        some [⟨"s", "helper"⟩, ⟨"s", "helper"⟩]⟩,
      position := 0, inDegree := 0, maxDepth := 0 }
    "helper" (by decide) (by decide) (by decide) (by decide)).mpr
    ⟨⟨⟨"s", "helper"⟩, by decide, by decide, by decide⟩, by decide⟩

/-! ## First-pass characterisation -/

theorem extractMethodInfo_funcDecl {f : FuncDecl} {p : Int} {m : MethodInfo}
    (hm : extractMethodInfo f p = some m) : m.funcDecl = f := by
  unfold extractMethodInfo at hm
  rcases hrecv : f.recv with _ | ⟨_ | ⟨⟨names, ty⟩, rest⟩⟩ <;> rw [hrecv] at hm
  · cases hm
  · cases hm
  · cases ty <;> simp only [Option.some.injEq] at hm <;> rw [← hm]

theorem extract_key_of_pos {f : FuncDecl} {p : Int} {m : MethodInfo}
    (hm : extractMethodInfo f p = some m) :
    ∃ m0 : MethodInfo, extractMethodInfo f 0 = some m0 ∧ recKey m0 = recKey m ∧
      m = { m0 with position := p } := by
  rw [extractMethodInfo_position] at hm
  rcases h0 : extractMethodInfo f 0 with _ | m0
  · rw [h0] at hm; cases hm
  · rw [h0] at hm
    simp only [Option.map_some', Option.some.injEq] at hm
    exact ⟨m0, rfl, by rw [← hm]; rfl, hm.symm⟩

theorem extractRecords_map_key (decls : List Decl) :
    ∀ p : Int, (extractRecords decls p).map recKey = declKeys decls := by
  induction decls with
  | nil => intro p; rfl
  | cons d rest ih =>
    intro p
    match d with
    | .genD t => exact ih p
    | .funcD f =>
      show (match extractMethodInfo f p with
        | some m => m :: extractRecords rest (p + 1)
        | none => extractRecords rest p).map recKey =
        (match extractMethodInfo f 0 with
          | some m0 => methodKey m0.receiverName m0.name :: declKeys rest
          | none => declKeys rest)
      rcases hm : extractMethodInfo f p with _ | m
      · have h0 : extractMethodInfo f 0 = none := by
          rw [extractMethodInfo_position] at hm
          rcases h0 : extractMethodInfo f 0 with _ | m0
          · rfl
          · rw [h0] at hm; cases hm
        rw [h0]
        exact ih p
      · obtain ⟨m0, h0, hkey, -⟩ := extract_key_of_pos hm
        rw [h0, List.map_cons, ih (p + 1)]
        show recKey m :: declKeys rest = methodKey m0.receiverName m0.name :: declKeys rest
        rw [show methodKey m0.receiverName m0.name = recKey m0 from rfl, hkey]

theorem extractRecords_good (decls : List Decl) :
    ∀ p : Int, ∀ r ∈ extractRecords decls p, ∀ q : Int,
      extractMethodInfo r.funcDecl q = some { r with position := q } := by
  induction decls with
  | nil => intro p r hr; simp [extractRecords] at hr
  | cons d rest ih =>
    intro p r hr q
    match d with
    | .genD t => exact ih p r hr q
    | .funcD f =>
      revert hr
      show r ∈ (match extractMethodInfo f p with
        | some m => m :: extractRecords rest (p + 1)
        | none => extractRecords rest p) → _
      rcases hm : extractMethodInfo f p with _ | m
      · intro hr
        exact ih p r hr q
      · intro hr
        rcases List.mem_cons.mp hr with rfl | hr2
        · obtain ⟨m0, h0, -, hreset⟩ := extract_key_of_pos hm
          have hfd0 : m0.funcDecl = f := extractMethodInfo_funcDecl h0
          have key : extractMethodInfo f q = some { m0 with position := q } := by
            rw [extractMethodInfo_position, h0]
            rfl
          rw [hreset]
          show extractMethodInfo m0.funcDecl q = some { m0 with position := q }
          rw [hfd0] at key ⊢
          exact key
        · exact ih (p + 1) r hr2 q

theorem mapInsert_fresh {α : Type} (m : List (String × α)) (k : String) (v : α)
    (h : mapLookup m k = none) : mapInsert m k v = m ++ [(k, v)] := by
  simp [mapInsert, h]

theorem collectMethods_methods_eq (decls : List Decl) :
    ∀ p : Int, ∀ cg : CallGraph, (declKeys decls).Nodup →
      (∀ k ∈ declKeys decls, mapLookup cg.methods k = none) →
      (collectMethods decls p cg).methods =
        cg.methods ++ (extractRecords decls p).map (fun r => (recKey r, r)) := by
  induction decls with
  | nil => intro p cg _ _; simp [collectMethods, extractRecords]
  | cons d rest ih =>
    intro p cg hnd hfresh
    match d with
    | .genD t => exact ih p cg hnd hfresh
    | .funcD f =>
      show (match extractMethodInfo f p with
        | some m => collectMethods rest (p + 1) (AddMethod cg m)
        | none => collectMethods rest p cg).methods =
        cg.methods ++ (match extractMethodInfo f p with
          | some m => m :: extractRecords rest (p + 1)
          | none => extractRecords rest p).map (fun r => (recKey r, r))
      rcases hm : extractMethodInfo f p with _ | m
      · have h0 : extractMethodInfo f 0 = none := by
          rw [extractMethodInfo_position] at hm
          rcases h0 : extractMethodInfo f 0 with _ | m0
          · rfl
          · rw [h0] at hm; cases hm
        have hnd' : (declKeys rest).Nodup := by
          revert hnd
          show (declKeys (Decl.funcD f :: rest)).Nodup → _
          simp [declKeys, h0]
        have hfresh' : ∀ k ∈ declKeys rest, mapLookup cg.methods k = none := by
          intro k hk
          refine hfresh k ?_
          show k ∈ declKeys (Decl.funcD f :: rest)
          simp [declKeys, h0, hk]
        exact ih p cg hnd' hfresh'
      · obtain ⟨m0, h0, hkey, -⟩ := extract_key_of_pos hm
        have hhead : methodKey m0.receiverName m0.name = recKey m := hkey
        have hmem0 : recKey m ∈ declKeys (Decl.funcD f :: rest) := by
          show recKey m ∈ (match extractMethodInfo f 0 with
            | some mm => methodKey mm.receiverName mm.name :: declKeys rest
            | none => declKeys rest)
          rw [h0]
          show recKey m ∈ methodKey m0.receiverName m0.name :: declKeys rest
          rw [hhead]
          simp
        have hndrest : (declKeys rest).Nodup ∧ recKey m ∉ declKeys rest := by
          revert hnd
          show (declKeys (Decl.funcD f :: rest)).Nodup → _
          rw [show declKeys (Decl.funcD f :: rest) =
            methodKey m0.receiverName m0.name :: declKeys rest by
              show (match extractMethodInfo f 0 with
                | some mm => methodKey mm.receiverName mm.name :: declKeys rest
                | none => declKeys rest) = _
              rw [h0]]
          intro h
          exact ⟨(List.nodup_cons.mp h).2, hhead ▸ (List.nodup_cons.mp h).1⟩
        have hAM : (AddMethod cg m).methods = cg.methods ++ [(recKey m, m)] := by
          show mapInsert cg.methods (methodKey m.receiverName m.name) m = _
          exact mapInsert_fresh cg.methods (recKey m) m (hfresh (recKey m) hmem0)
        have hfresh' : ∀ k ∈ declKeys rest, mapLookup (AddMethod cg m).methods k = none := by
          intro k hk
          have hkne : k ≠ recKey m := fun hcontra => hndrest.2 (hcontra ▸ hk)
          rw [show (AddMethod cg m).methods =
            mapInsert cg.methods (methodKey m.receiverName m.name) m from rfl,
            mapLookup_mapInsert,
            if_neg (show ¬ (k = methodKey m.receiverName m.name) from hkne)]
          refine hfresh k ?_
          show k ∈ declKeys (Decl.funcD f :: rest)
          rw [show declKeys (Decl.funcD f :: rest) =
            methodKey m0.receiverName m0.name :: declKeys rest by
              show (match extractMethodInfo f 0 with
                | some mm => methodKey mm.receiverName mm.name :: declKeys rest
                | none => declKeys rest) = _
              rw [h0]]
          simp [hk]
        rw [ih (p + 1) (AddMethod cg m) hndrest.1 hfresh', hAM]
        simp

theorem methodKeysOf_eq_declKeys (decls : List Decl)
    (hnd : (declKeys decls).Nodup) : methodKeysOf decls = declKeys decls := by
  unfold methodKeysOf
  rw [collectMethods_methods_eq decls 0 NewCallGraph hnd (fun k _ => rfl)]
  show mapKeysOf ([] ++ (extractRecords decls 0).map (fun r => (recKey r, r))) = _
  rw [List.nil_append]
  unfold mapKeysOf
  rw [List.map_map]
  exact extractRecords_map_key decls 0

/-! ## Keyed record lists and the canonical `GetMethods` run -/

theorem recKey_metricize (cg : CallGraph) (e : List String) (m : MethodInfo) :
    recKey (metricize cg e m) = recKey m := rfl

theorem keyed_lookup_mem {rs : List MethodInfo} {k : String} {r : MethodInfo}
    (h : mapLookup (rs.map (fun x => (recKey x, x))) k = some r) :
    r ∈ rs ∧ recKey r = k := by
  induction rs with
  | nil => cases h
  | cons a rest ih =>
    revert h
    show (if recKey a = k then some a else
      mapLookup (rest.map (fun x => (recKey x, x))) k) = some r → _
    by_cases ha : recKey a = k
    · rw [if_pos ha]
      intro h
      rw [← Option.some.inj h]
      exact ⟨List.mem_cons_self a rest, ha⟩
    · rw [if_neg ha]
      intro h
      obtain ⟨hm, hk⟩ := ih h
      exact ⟨List.mem_cons_of_mem a hm, hk⟩

theorem keyed_lookup_of_mem {rs : List MethodInfo} {r : MethodInfo}
    (hnd : (rs.map recKey).Nodup) (hr : r ∈ rs) :
    mapLookup (rs.map (fun x => (recKey x, x))) (recKey r) = some r := by
  induction rs with
  | nil => cases hr
  | cons a rest ih =>
    have hnd' : (recKey a :: rest.map recKey).Nodup := hnd
    rcases List.mem_cons.mp hr with rfl | hmem
    · show (if recKey r = recKey r then some r else
        mapLookup (rest.map (fun x => (recKey x, x))) (recKey r)) = some r
      rw [if_pos rfl]
    · have hne : recKey a ≠ recKey r := by
        intro hc
        exact (List.nodup_cons.mp hnd').1 (hc ▸ List.mem_map_of_mem recKey hmem)
      show (if recKey a = recKey r then some a else
        mapLookup (rest.map (fun x => (recKey x, x))) (recKey r)) = some r
      rw [if_neg hne]
      exact ih (List.nodup_cons.mp hnd').2 hmem

theorem keyed_filterMap_self (rs : List MethodInfo) (hnd : (rs.map recKey).Nodup) :
    (rs.map recKey).filterMap
        (fun k => mapLookup (rs.map (fun x => (recKey x, x))) k) = rs := by
  induction rs with
  | nil => rfl
  | cons a rest ih =>
    have hnd' : (recKey a :: rest.map recKey).Nodup := hnd
    have hhead : mapLookup ((a :: rest).map (fun x => (recKey x, x))) (recKey a) = some a :=
      keyed_lookup_of_mem hnd (List.mem_cons_self a rest)
    have htail : ∀ k ∈ rest.map recKey,
        mapLookup ((a :: rest).map (fun x => (recKey x, x))) k =
          mapLookup (rest.map (fun x => (recKey x, x))) k := by
      intro k hk
      have hne : recKey a ≠ k := fun hc => (List.nodup_cons.mp hnd').1 (hc ▸ hk)
      show (if recKey a = k then some a else
        mapLookup (rest.map (fun x => (recKey x, x))) k) = _
      rw [if_neg hne]
    show List.filterMap _ (recKey a :: rest.map recKey) = a :: rest
    rw [List.filterMap_cons, hhead]
    rw [List.filterMap_congr htail, ih (List.nodup_cons.mp hnd').2]

theorem extractMethodInfo_metrics_zero {f : FuncDecl} {p : Int} {m : MethodInfo}
    (hm : extractMethodInfo f p = some m) : m.inDegree = 0 ∧ m.maxDepth = 0 := by
  unfold extractMethodInfo at hm
  rcases hrecv : f.recv with _ | ⟨_ | ⟨⟨names, ty⟩, rest⟩⟩ <;> rw [hrecv] at hm
  · cases hm
  · cases hm
  · cases ty <;> simp only [Option.some.injEq] at hm <;> rw [← hm] <;> exact ⟨rfl, rfl⟩

theorem extractRecords_self {decls : List Decl} {p : Int} {r : MethodInfo}
    (hr : r ∈ extractRecords decls p) :
    extractMethodInfo r.funcDecl r.position = some r :=
  extractRecords_good decls p r hr r.position

theorem extractRecords_metrics_zero {decls : List Decl} {p : Int} {r : MethodInfo}
    (hr : r ∈ extractRecords decls p) : r.inDegree = 0 ∧ r.maxDepth = 0 :=
  extractMethodInfo_metrics_zero (extractRecords_self hr)

theorem extractRecords_pos_le (decls : List Decl) :
    ∀ p : Int, ∀ r ∈ extractRecords decls p, p ≤ r.position := by
  induction decls with
  | nil => intro p r hr; cases hr
  | cons d rest ih =>
    intro p r hr
    match d with
    | .genD t => exact ih p r hr
    | .funcD f =>
      revert hr
      show r ∈ (match extractMethodInfo f p with
        | some m => m :: extractRecords rest (p + 1)
        | none => extractRecords rest p) → _
      rcases hm : extractMethodInfo f p with _ | m
      · exact ih p r
      · intro hr
        rcases List.mem_cons.mp hr with rfl | hr2
        · obtain ⟨m0, -, -, hreset⟩ := extract_key_of_pos hm
          subst hreset
          exact le_refl p
        · have := ih (p + 1) r hr2
          omega

theorem extractRecords_pos_sorted (decls : List Decl) :
    ∀ p : Int, (extractRecords decls p).Pairwise (fun a b => a.position < b.position) := by
  induction decls with
  | nil => intro p; exact List.Pairwise.nil
  | cons d rest ih =>
    intro p
    match d with
    | .genD t => exact ih p
    | .funcD f =>
      show (match extractMethodInfo f p with
        | some m => m :: extractRecords rest (p + 1)
        | none => extractRecords rest p).Pairwise _
      rcases hm : extractMethodInfo f p with _ | m
      · exact ih p
      · refine List.pairwise_cons.mpr ⟨?_, ih (p + 1)⟩
        intro b hb
        obtain ⟨m0, -, -, hreset⟩ := extract_key_of_pos hm
        have hple := extractRecords_pos_le rest (p + 1) b hb
        rw [hreset]
        show p < b.position
        omega

theorem extractRecords_mem_decl (decls : List Decl) :
    ∀ p : Int, ∀ r ∈ extractRecords decls p, Decl.funcD r.funcDecl ∈ decls := by
  induction decls with
  | nil => intro p r hr; cases hr
  | cons d rest ih =>
    intro p r hr
    match d with
    | .genD t => exact List.mem_cons_of_mem _ (ih p r hr)
    | .funcD f =>
      revert hr
      show r ∈ (match extractMethodInfo f p with
        | some m => m :: extractRecords rest (p + 1)
        | none => extractRecords rest p) → _
      rcases hm : extractMethodInfo f p with _ | m
      · intro hr
        exact List.mem_cons_of_mem _ (ih p r hr)
      · intro hr
        rcases List.mem_cons.mp hr with rfl | hr2
        · rw [extractMethodInfo_funcDecl hm]
          exact List.mem_cons_self _ _
        · exact List.mem_cons_of_mem _ (ih (p + 1) r hr2)

theorem extractRecords_eq_filter (decls : List Decl) :
    ∀ p : Int, (extractRecords decls p).map (fun r => Decl.funcD r.funcDecl) =
      decls.filter isMethodDecl := by
  induction decls with
  | nil => intro p; rfl
  | cons d rest ih =>
    intro p
    match d with
    | .genD t =>
      show (extractRecords rest p).map _ = List.filter _ (Decl.genD t :: rest)
      rw [List.filter_cons, if_neg (by simp [isMethodDecl])]
      exact ih p
    | .funcD f =>
      show (match extractMethodInfo f p with
        | some m => m :: extractRecords rest (p + 1)
        | none => extractRecords rest p).map _ = List.filter _ (Decl.funcD f :: rest)
      rw [List.filter_cons]
      show _ = if (extractMethodInfo f 0).isSome = true then
        Decl.funcD f :: List.filter isMethodDecl rest else List.filter isMethodDecl rest
      rcases hm : extractMethodInfo f p with _ | m
      · have h0 : extractMethodInfo f 0 = none := by
          rw [extractMethodInfo_position] at hm
          rcases h0 : extractMethodInfo f 0 with _ | m0
          · rfl
          · rw [h0] at hm; cases hm
        rw [if_neg (by rw [h0]; simp)]
        exact ih p
      · obtain ⟨m0, h0, -, -⟩ := extract_key_of_pos hm
        rw [if_pos (by rw [h0]; rfl), List.map_cons, ih (p + 1),
          extractMethodInfo_funcDecl hm]

theorem pairwise_pos_lt_of_le {l : List MethodInfo}
    (hle : l.Pairwise (fun a b => a.position ≤ b.position))
    (hnd : (l.map (fun m => m.position)).Nodup) :
    l.Pairwise (fun a b => a.position < b.position) := by
  induction l with
  | nil => exact List.Pairwise.nil
  | cons a rest ih =>
    rw [List.map_cons, List.nodup_cons] at hnd
    rcases List.pairwise_cons.mp hle with ⟨ha, hrest⟩
    refine List.pairwise_cons.mpr ⟨?_, ih hrest hnd.2⟩
    intro b hb
    rcases lt_or_eq_of_le (ha b hb) with h | h
    · exact h
    · exact absurd (h ▸ List.mem_map_of_mem (fun m => m.position) hb) hnd.1

theorem sortByPosition_perm (ms : List MethodInfo) : (sortByPosition ms).Perm ms :=
  List.perm_insertionSort _ ms

theorem sortByPosition_sorted (ms : List MethodInfo) :
    (sortByPosition ms).Pairwise (fun a b => a.position ≤ b.position) := by
  haveI : IsTotal MethodInfo (fun a b => a.position ≤ b.position) :=
    ⟨fun a b => le_total _ _⟩
  haveI : IsTrans MethodInfo (fun a b => a.position ≤ b.position) :=
    ⟨fun a b c => le_trans⟩
  exact List.sorted_insertionSort _ ms

theorem sortByPosition_eq_of_perm {l t : List MethodInfo} (hperm : l.Perm t)
    (ht : t.Pairwise (fun a b => a.position < b.position)) :
    sortByPosition l = t := by
  haveI : IsAntisymm MethodInfo (fun a b => a.position < b.position) :=
    ⟨fun a b h1 h2 => absurd h2 (not_lt.mpr (le_of_lt h1))⟩
  have htnd : (t.map (fun m => m.position)).Nodup := by
    show (t.map (fun m => m.position)).Pairwise (fun a b => a ≠ b)
    rw [List.pairwise_map]
    exact ht.imp (fun h => ne_of_lt h)
  have hnd : ((sortByPosition l).map (fun m => m.position)).Nodup :=
    (List.Perm.nodup_iff
      (List.Perm.map _ ((sortByPosition_perm l).trans hperm))).mpr htnd
  exact List.eq_of_perm_of_sorted ((sortByPosition_perm l).trans hperm)
    (pairwise_pos_lt_of_le (sortByPosition_sorted l) hnd) ht

theorem getMethodsE_keyed (cg : CallGraph) (rs : List MethodInfo) (e : List String)
    (hnd : (rs.map recKey).Nodup) (hperm : e.Perm (rs.map recKey))
    (hsorted : rs.Pairwise (fun a b => a.position < b.position))
    (hlook : ∀ k, mapLookup cg.methods k =
      mapLookup (rs.map (fun x => (recKey x, x))) k) :
    GetMethodsE cg e = rs := by
  show sortByPosition
    ((sortStrings e).filterMap (fun k => mapLookup cg.methods k)) = rs
  rw [show (fun k => mapLookup cg.methods k) =
    (fun k => mapLookup (rs.map (fun x => (recKey x, x))) k) from funext hlook]
  refine sortByPosition_eq_of_perm ?_ hsorted
  refine (List.Perm.filterMap _ ((List.perm_insertionSort _ e).trans hperm)).trans ?_
  rw [keyed_filterMap_self rs hnd]

theorem cgA_methods (decls : List Decl) (hnd : (declKeys decls).Nodup) :
    (collectCalls decls (collectMethods decls 0 NewCallGraph)).methods =
      (extractRecords decls 0).map (fun r => (recKey r, r)) := by
  rw [collectCalls_methods,
    collectMethods_methods_eq decls 0 NewCallGraph hnd (fun k _ => rfl)]
  exact List.nil_append _

theorem getMethods_run1 (decls : List Decl) (hnd : (declKeys decls).Nodup) :
    GetMethodsE (buildCallGraphE decls (methodKeysOf decls)) (methodKeysOf decls) =
      (extractRecords decls 0).map
        (metricize (collectCalls decls (collectMethods decls 0 NewCallGraph))
          (methodKeysOf decls)) := by
  have hK : methodKeysOf decls = declKeys decls := methodKeysOf_eq_declKeys decls hnd
  have hEkeys : (extractRecords decls 0).map recKey = declKeys decls :=
    extractRecords_map_key decls 0
  have hndE : ((extractRecords decls 0).map recKey).Nodup := by rw [hEkeys]; exact hnd
  have hrskeys : ((extractRecords decls 0).map
      (metricize (collectCalls decls (collectMethods decls 0 NewCallGraph))
        (methodKeysOf decls))).map recKey =
      (extractRecords decls 0).map recKey := by
    rw [List.map_map]
    rfl
  have hndrs : (((extractRecords decls 0).map
      (metricize (collectCalls decls (collectMethods decls 0 NewCallGraph))
        (methodKeysOf decls))).map recKey).Nodup := by rw [hrskeys]; exact hndE
  have hsKnd : (sortStrings (methodKeysOf decls)).Nodup :=
    (List.Perm.nodup_iff (List.perm_insertionSort _ _)).mpr (by rw [hK]; exact hnd)
  refine getMethodsE_keyed _ _ _ hndrs (by rw [hrskeys, hEkeys, ← hK]) ?_ ?_
  · rw [List.pairwise_map]
    exact extractRecords_pos_sorted decls 0
  · intro k
    show mapLookup (CalculateMetricsE
      (collectCalls decls (collectMethods decls 0 NewCallGraph))
      (methodKeysOf decls)).methods k = _
    rw [calculateMetricsE_lookup _ _ k hsKnd]
    by_cases hkmem : k ∈ declKeys decls
    · have hkS : k ∈ sortStrings (methodKeysOf decls) :=
        (List.perm_insertionSort _ _).mem_iff.mpr (by rw [hK]; exact hkmem)
      rw [if_pos hkS]
      obtain ⟨r, hr, hrk⟩ := List.mem_map.mp (by rw [hEkeys]; exact hkmem :
        k ∈ (extractRecords decls 0).map recKey)
      subst hrk
      rw [cgA_methods decls hnd, keyed_lookup_of_mem hndE hr]
      rw [show mapLookup (((extractRecords decls 0).map
          (metricize (collectCalls decls (collectMethods decls 0 NewCallGraph))
            (methodKeysOf decls))).map (fun x => (recKey x, x))) (recKey r) =
        some (metricize (collectCalls decls (collectMethods decls 0 NewCallGraph))
          (methodKeysOf decls) r) from
        keyed_lookup_of_mem hndrs (List.mem_map_of_mem _ hr)]
      rfl
    · have hkS : k ∉ sortStrings (methodKeysOf decls) := fun hc =>
        hkmem (by rw [← hK]; exact (List.perm_insertionSort _ _).mem_iff.mp hc)
      rw [if_neg hkS]
      rw [cgA_methods decls hnd]
      rw [(mapLookup_eq_none_iff _ _).mpr, (mapLookup_eq_none_iff _ _).mpr]
      · intro hc
        refine hkmem ?_
        rw [← hEkeys, ← hrskeys]
        revert hc
        show k ∈ mapKeysOf (List.map (fun x => (recKey x, x)) _) → _
        rw [mapKeysOf, List.map_map]
        exact fun hc => hc
      · intro hc
        refine hkmem ?_
        rw [← hEkeys]
        revert hc
        show k ∈ mapKeysOf (List.map (fun x => (recKey x, x)) _) → _
        rw [mapKeysOf, List.map_map]
        exact fun hc => hc

/-! ## Change detection and the reorder pass -/

theorem sorterSortE_eq (decls : List Decl) (e₁ e₂ : List String) :
    sorterSortE decls e₁ e₂ =
      (fun methods =>
        if methods.length = 0 then (decls, false)
        else
          if hasOrderChanged methods (sortMethods methods) then
            (reorderMethods decls (sortMethods methods), true)
          else (decls, false))
        (GetMethodsE (buildCallGraphE decls e₁) e₂) := rfl

theorem zip_self_any_pos (l : List MethodInfo) :
    (l.zip l).any (fun p => p.1.position != p.2.position) = false := by
  induction l with
  | nil => rfl
  | cons a rest ih => simp [List.zip_cons_cons, ih]

theorem hasOrderChanged_self (l : List MethodInfo) : hasOrderChanged l l = false := by
  unfold hasOrderChanged
  simp [zip_self_any_pos l]

theorem any_pos_ne_eq_false_iff :
    ∀ l₁ l₂ : List MethodInfo, l₁.length = l₂.length →
      (((l₁.zip l₂).any (fun p => p.1.position != p.2.position)) = false ↔
        l₂.map (fun m => m.position) = l₁.map (fun m => m.position))
  | [], [], _ => by simp
  | [], b :: bs, h => by cases h
  | a :: as, [], h => by cases h
  | a :: as, b :: bs, h => by
    have hlen : as.length = bs.length := by simpa using h
    rw [List.zip_cons_cons, List.any_cons, List.map_cons, List.map_cons,
      Bool.or_eq_false_iff]
    constructor
    · rintro ⟨h1, h2⟩
      have hab : a.position = b.position := bne_eq_false_iff_eq.mp h1
      rw [hab, (any_pos_ne_eq_false_iff as bs hlen).mp h2]
    · intro hmap
      injection hmap with hhead htail
      exact ⟨bne_eq_false_iff_eq.mpr hhead.symm,
        (any_pos_ne_eq_false_iff as bs hlen).mpr htail⟩

theorem hasOrderChanged_eq_false_iff (orig sorted : List MethodInfo)
    (hlen : orig.length = sorted.length) :
    hasOrderChanged orig sorted = false ↔
      sorted.map (fun m => m.position) = orig.map (fun m => m.position) := by
  unfold hasOrderChanged
  rw [show (orig.length != sorted.length) = false from by simp [hlen], Bool.false_or]
  exact any_pos_ne_eq_false_iff orig sorted hlen

theorem mem_run1_extract {decls : List Decl} {m : MethodInfo}
    (hm : m ∈ (extractRecords decls 0).map
      (metricize (collectCalls decls (collectMethods decls 0 NewCallGraph))
        (methodKeysOf decls))) :
    ∀ q : Int, extractMethodInfo m.funcDecl q =
      some { m with position := q, inDegree := 0, maxDepth := 0 } := by
  obtain ⟨r, hr, rfl⟩ := List.mem_map.mp hm
  intro q
  have hz := extractRecords_metrics_zero hr
  have hg := extractRecords_good decls 0 r hr q
  show extractMethodInfo r.funcDecl q = _
  rw [hg, hz.1, hz.2]
  rfl

theorem mem_run1_decl {decls : List Decl} {m : MethodInfo}
    (hm : m ∈ (extractRecords decls 0).map
      (metricize (collectCalls decls (collectMethods decls 0 NewCallGraph))
        (methodKeysOf decls))) :
    Decl.funcD m.funcDecl ∈ decls := by
  obtain ⟨r, hr, rfl⟩ := List.mem_map.mp hm
  show Decl.funcD r.funcDecl ∈ decls
  exact extractRecords_mem_decl decls 0 r hr

theorem reorder_filter_eq (decls : List Decl) (sorted : List MethodInfo)
    (hmeth : ∀ f : FuncDecl, Decl.funcD f ∈ decls →
      ((extractMethodInfo f 0).isSome = true ↔ ∃ m ∈ sorted, m.funcDecl = f)) :
    reorderMethods decls sorted =
      decls.filter (fun d => !(isMethodDecl d)) ++
        sorted.map (fun m => Decl.funcD m.funcDecl) := by
  unfold reorderMethods
  congr 1
  refine List.filter_congr ?_
  intro d hd
  match d with
  | .genD t => rfl
  | .funcD f =>
    show (!(sorted.any (fun m => m.funcDecl == f))) = !(isMethodDecl (Decl.funcD f))
    congr 1
    show (sorted.any (fun m => m.funcDecl == f)) = (extractMethodInfo f 0).isSome
    cases hex : (extractMethodInfo f 0).isSome with
    | false =>
      rw [List.any_eq_false]
      intro m hm hbeq
      have hf : m.funcDecl = f := by simpa using hbeq
      have := (hmeth f hd).mpr ⟨m, hm, hf⟩
      rw [this] at hex
      cases hex
    | true =>
      obtain ⟨m, hm, hf⟩ := (hmeth f hd).mp hex
      exact List.any_eq_true.mpr ⟨m, hm, by simp [hf]⟩

theorem run1_reorder (decls : List Decl) (sorted : List MethodInfo)
    (hperm : sorted.Perm ((extractRecords decls 0).map
      (metricize (collectCalls decls (collectMethods decls 0 NewCallGraph))
        (methodKeysOf decls)))) :
    reorderMethods decls sorted =
      decls.filter (fun d => !(isMethodDecl d)) ++
        sorted.map (fun m => Decl.funcD m.funcDecl) := by
  refine reorder_filter_eq decls sorted ?_
  intro f hf
  constructor
  · intro hex
    have hfmem : Decl.funcD f ∈ decls.filter isMethodDecl :=
      List.mem_filter.mpr ⟨hf, hex⟩
    rw [← extractRecords_eq_filter decls 0] at hfmem
    obtain ⟨r, hr, hrf⟩ := List.mem_map.mp hfmem
    have hrf' : r.funcDecl = f := Decl.funcD.inj hrf
    exact ⟨metricize _ _ r, hperm.mem_iff.mpr (List.mem_map_of_mem _ hr), hrf'⟩
  · rintro ⟨m, hm, rfl⟩
    rw [mem_run1_extract (hperm.mem_iff.mp hm) 0]
    rfl

theorem extractRecords_append_nonmethods (A B : List Decl) :
    ∀ p : Int, (∀ d ∈ A, isMethodDecl d = false) →
      extractRecords (A ++ B) p = extractRecords B p := by
  induction A with
  | nil => intro p _; rfl
  | cons d A ih =>
    intro p hA
    have hA' : ∀ x ∈ A, isMethodDecl x = false :=
      fun x hx => hA x (List.mem_cons_of_mem d hx)
    match d with
    | .genD t =>
      show extractRecords (A ++ B) p = _
      exact ih p hA'
    | .funcD f =>
      have hd : isMethodDecl (Decl.funcD f) = false := hA _ (List.mem_cons_self _ _)
      have h0 : extractMethodInfo f 0 = none := by
        revert hd
        show (extractMethodInfo f 0).isSome = false → _
        cases h : extractMethodInfo f 0
        · intro _; rfl
        · intro hc; cases hc
      have hp : extractMethodInfo f p = none := by
        rw [extractMethodInfo_position, h0]
        rfl
      show (match extractMethodInfo f p with
        | some m => m :: extractRecords (A ++ B) (p + 1)
        | none => extractRecords (A ++ B) p) = extractRecords B p
      rw [hp]
      exact ih p hA'

theorem extractRecords_funcD_list (ms : List MethodInfo) :
    ∀ p : Int,
      (∀ m ∈ ms, ∀ q : Int, extractMethodInfo m.funcDecl q =
        some { m with position := q, inDegree := 0, maxDepth := 0 }) →
      extractRecords (ms.map (fun m => Decl.funcD m.funcDecl)) p = resetList ms p := by
  induction ms with
  | nil => intro p _; rfl
  | cons m ms ih =>
    intro p h
    show (match extractMethodInfo m.funcDecl p with
      | some x => x :: extractRecords (ms.map (fun y => Decl.funcD y.funcDecl)) (p + 1)
      | none => extractRecords (ms.map (fun y => Decl.funcD y.funcDecl)) p) =
      resetList (m :: ms) p
    rw [h m (List.mem_cons_self _ _) p]
    show _ :: _ =
      { m with position := p, inDegree := 0, maxDepth := 0 } :: resetList ms (p + 1)
    rw [ih (p + 1) (fun x hx q => h x (List.mem_cons_of_mem _ hx) q)]

theorem resetList_map_key (ms : List MethodInfo) :
    ∀ p : Int, (resetList ms p).map recKey = ms.map recKey := by
  induction ms with
  | nil => intro p; rfl
  | cons m ms ih =>
    intro p
    show recKey { m with position := p, inDegree := 0, maxDepth := 0 } ::
      (resetList ms (p + 1)).map recKey = recKey m :: ms.map recKey
    rw [ih (p + 1)]
    rfl

theorem map_metricize_resetList (cg2 : CallGraph) (e2 : List String)
    (ms : List MethodInfo) :
    ∀ p : Int,
      (∀ m ∈ ms, m.maxDepth = calculateMaxDepth cg2.calls (recKey m) ∅ ∧
        m.inDegree = (mapLookup (inDegreeMap cg2 (sortStrings e2)) (recKey m)).getD 0) →
      (resetList ms p).map (metricize cg2 e2) = renumber ms p := by
  induction ms with
  | nil => intro p _; rfl
  | cons m ms ih =>
    intro p h
    obtain ⟨h1, h2⟩ := h m (List.mem_cons_self _ _)
    show metricize cg2 e2 { m with position := p, inDegree := 0, maxDepth := 0 } ::
      (resetList ms (p + 1)).map (metricize cg2 e2) =
      { m with position := p } :: renumber ms (p + 1)
    rw [ih (p + 1) (fun x hx => h x (List.mem_cons_of_mem _ hx))]
    congr 1
    show ({ m with position := p,
                   inDegree := (mapLookup (inDegreeMap cg2 (sortStrings e2))
                     (recKey m)).getD 0,
                   maxDepth := calculateMaxDepth cg2.calls (recKey m) ∅ } :
        MethodInfo) =
      { m with position := p }
    rw [← h1, ← h2]

/-! ## Congruence of the metrics under reordering -/

theorem mem_mapInsert {α : Type} {m : List (String × α)} {k : String} {v : α}
    {p : String × α} (h : p ∈ mapInsert m k v) : p ∈ m ∨ p = (k, v) := by
  unfold mapInsert at h
  by_cases hs : (mapLookup m k).isSome
  · rw [if_pos hs] at h
    obtain ⟨q, hq, hpq⟩ := List.mem_map.mp h
    by_cases hqk : q.1 = k
    · right
      rw [← hpq, if_pos hqk]
    · left
      rw [← hpq, if_neg hqk]
      exact hq
  · rw [if_neg hs] at h
    rcases List.mem_append.mp h with h1 | h1
    · left; exact h1
    · right; simpa using h1

theorem AddCall_entries_nonempty (cg : CallGraph) (a b c d : String)
    (hinv : ∀ p ∈ cg.calls, p.2 ≠ ([] : List String)) :
    ∀ p ∈ (AddCall cg a b c d).calls, p.2 ≠ ([] : List String) := by
  intro p hp
  by_cases hs : (mapLookup cg.methods (methodKey c d)).isSome
  · simp only [AddCall, hs, if_true] at hp
    rcases mem_mapInsert hp with h1 | h1
    · exact hinv p h1
    · rw [h1]
      simp
  · simp only [AddCall, hs, Bool.false_eq_true, if_false] at hp
    exact hinv p hp

theorem visitBody_entries_nonempty (r n : String) (sites : List CallSite)
    (cg : CallGraph) (hinv : ∀ p ∈ cg.calls, p.2 ≠ ([] : List String)) :
    ∀ p ∈ (visitBody r n sites cg).calls, p.2 ≠ ([] : List String) := by
  induction sites generalizing cg with
  | nil => exact hinv
  | cons s rest ih =>
    show ∀ p ∈ (visitBody r n rest _).calls, p.2 ≠ ([] : List String)
    by_cases h : identMatches r s.xName
    · rw [if_pos h]
      exact ih _ (AddCall_entries_nonempty cg _ _ _ _ hinv)
    · rw [if_neg h]
      exact ih cg hinv

theorem collectCalls_entries_nonempty (decls : List Decl) (cg : CallGraph)
    (hinv : ∀ p ∈ cg.calls, p.2 ≠ ([] : List String)) :
    ∀ p ∈ (collectCalls decls cg).calls, p.2 ≠ ([] : List String) := by
  induction decls generalizing cg with
  | nil => exact hinv
  | cons d rest ih =>
    match d with
    | .genD t => exact ih cg hinv
    | .funcD f =>
      show ∀ p ∈ (match extractMethodInfo f 0 with
        | some m =>
          match f.body with
          | some sites => collectCalls rest (visitBody m.receiverName m.name sites cg)
          | none => collectCalls rest cg
        | none => collectCalls rest cg).calls, p.2 ≠ ([] : List String)
      rcases hm : extractMethodInfo f 0 with _ | m
      · exact ih cg hinv
      · rcases hb : f.body with _ | sites
        · exact ih cg hinv
        · exact ih _ (visitBody_entries_nonempty _ _ _ cg hinv)

theorem lookupCalls_ne_nil_iff {calls : List (String × List String)}
    (hinv : ∀ p ∈ calls, p.2 ≠ ([] : List String)) (k : String) :
    lookupCalls calls k ≠ [] ↔ k ∈ mapKeysOf calls := by
  rw [← mapLookup_isSome_iff]
  unfold lookupCalls
  rcases h : mapLookup calls k with _ | v
  · simp
  · have hv : v ≠ [] := hinv (k, v) (mapLookup_mem h)
    simp [hv]

theorem mapLookup_calls_ext {c₁ c₂ : List (String × List String)}
    (h₁ : ∀ p ∈ c₁, p.2 ≠ ([] : List String))
    (h₂ : ∀ p ∈ c₂, p.2 ≠ ([] : List String))
    (hl : ∀ k, lookupCalls c₁ k = lookupCalls c₂ k) (k : String) :
    mapLookup c₁ k = mapLookup c₂ k := by
  have hk := hl k
  unfold lookupCalls at hk
  rcases e₁ : mapLookup c₁ k with _ | v₁ <;> rcases e₂ : mapLookup c₂ k with _ | v₂
  · rfl
  · rw [e₁, e₂] at hk
    have hv := h₂ (k, v₂) (mapLookup_mem e₂)
    simp at hk
    exact absurd hk hv
  · rw [e₁, e₂] at hk
    have hv := h₁ (k, v₁) (mapLookup_mem e₁)
    simp at hk
    exact absurd hk hv
  · rw [e₁, e₂] at hk
    simp at hk
    rw [hk]

theorem callsKeys_ext {c₁ c₂ : List (String × List String)}
    (h₁ : ∀ p ∈ c₁, p.2 ≠ ([] : List String))
    (h₂ : ∀ p ∈ c₂, p.2 ≠ ([] : List String))
    (hl : ∀ k, lookupCalls c₁ k = lookupCalls c₂ k) :
    callsKeys c₁ = callsKeys c₂ := by
  unfold callsKeys
  ext k
  simp only [List.mem_toFinset]
  rw [show (c₁.map (fun p => p.1)) = mapKeysOf c₁ from rfl,
    show (c₂.map (fun p => p.1)) = mapKeysOf c₂ from rfl,
    ← lookupCalls_ne_nil_iff h₁ k, ← lookupCalls_ne_nil_iff h₂ k, hl k]

theorem calcDepthFuel_congr {c₁ c₂ : List (String × List String)}
    (hl : ∀ k, lookupCalls c₁ k = lookupCalls c₂ k) :
    ∀ fuel : Nat, ∀ visited : Finset String, ∀ key : String,
      calcDepthFuel c₁ fuel visited key = calcDepthFuel c₂ fuel visited key := by
  intro fuel
  induction fuel with
  | zero => intro visited key; rfl
  | succ fuel ih =>
    intro visited key
    show (if key ∈ visited then 0 else
        (lookupCalls c₁ key).foldl
          (fun maxDepth t =>
            let depth := calcDepthFuel c₁ fuel (insert key visited) t
            if depth + 1 > maxDepth then depth + 1 else maxDepth) 0) =
      (if key ∈ visited then 0 else
        (lookupCalls c₂ key).foldl
          (fun maxDepth t =>
            let depth := calcDepthFuel c₂ fuel (insert key visited) t
            if depth + 1 > maxDepth then depth + 1 else maxDepth) 0)
    by_cases hv : key ∈ visited
    · rw [if_pos hv, if_pos hv]
    · rw [if_neg hv, if_neg hv, hl key,
        show (fun (maxDepth : Int) (t : String) =>
          let depth := calcDepthFuel c₁ fuel (insert key visited) t
          if depth + 1 > maxDepth then depth + 1 else maxDepth) =
        (fun (maxDepth : Int) (t : String) =>
          let depth := calcDepthFuel c₂ fuel (insert key visited) t
          if depth + 1 > maxDepth then depth + 1 else maxDepth) from
        funext fun maxDepth => funext fun t => by
          rw [show calcDepthFuel c₁ fuel (insert key visited) t =
            calcDepthFuel c₂ fuel (insert key visited) t from
            ih (insert key visited) t]]

theorem calculateMaxDepth_congr {c₁ c₂ : List (String × List String)}
    (h₁ : ∀ p ∈ c₁, p.2 ≠ ([] : List String))
    (h₂ : ∀ p ∈ c₂, p.2 ≠ ([] : List String))
    (hl : ∀ k, lookupCalls c₁ k = lookupCalls c₂ k) (key : String)
    (visited : Finset String) :
    calculateMaxDepth c₁ key visited = calculateMaxDepth c₂ key visited := by
  unfold calculateMaxDepth
  rw [callsKeys_ext h₁ h₂ hl]
  exact calcDepthFuel_congr hl _ visited key

theorem foldl_congr {α β : Type} {f g : α → β → α} (h : ∀ a b, f a b = g a b) :
    ∀ (l : List β) (init : α), l.foldl f init = l.foldl g init := by
  intro l
  induction l with
  | nil => intro init; rfl
  | cons x l ih =>
    intro init
    rw [List.foldl_cons, List.foldl_cons, h init x]
    exact ih (g init x)

theorem inDegreeMap_congr {cgA cgB : CallGraph}
    (h : ∀ k, mapLookup cgA.calls k = mapLookup cgB.calls k) (keys : List String) :
    inDegreeMap cgA keys = inDegreeMap cgB keys := by
  unfold inDegreeMap
  exact foldl_congr (fun ind key => by rw [h key]) keys []

theorem metricize_congr {cgA cgB : CallGraph} {eA eB : List String}
    (hinvA : ∀ p ∈ cgA.calls, p.2 ≠ ([] : List String))
    (hinvB : ∀ p ∈ cgB.calls, p.2 ≠ ([] : List String))
    (hl : ∀ k, lookupCalls cgA.calls k = lookupCalls cgB.calls k)
    (he : sortStrings eA = sortStrings eB) (m : MethodInfo) :
    metricize cgA eA m = metricize cgB eB m := by
  unfold metricize
  rw [inDegreeMap_congr (mapLookup_calls_ext hinvA hinvB hl), he,
    calculateMaxDepth_congr hinvA hinvB hl]

theorem bodyEdges_congr {ms₁ ms₂ : List (String × MethodInfo)}
    (h : ∀ k, (mapLookup ms₁ k).isSome = (mapLookup ms₂ k).isSome)
    (r : String) (sites : List CallSite) :
    bodyEdges ms₁ r sites = bodyEdges ms₂ r sites := by
  unfold bodyEdges
  refine List.filterMap_congr ?_
  intro s _
  rw [h (methodKey r s.selName)]

theorem run_calls_lookup (decls : List Decl) (k : String) :
    lookupCalls (collectCalls decls (collectMethods decls 0 NewCallGraph)).calls k =
      declsEdges (collectMethods decls 0 NewCallGraph).methods decls k := by
  rw [collectCalls_calls_lookup,
    show lookupCalls (collectMethods decls 0 NewCallGraph).calls k = [] from by
      rw [lookupCalls, collectMethods_calls]
      rfl]
  exact List.nil_append _

theorem declsEdges_key (ms : List (String × MethodInfo)) :
    ∀ ds : List Decl, (declKeys ds).Nodup →
      ∀ f : FuncDecl, ∀ m : MethodInfo,
        Decl.funcD f ∈ ds → extractMethodInfo f 0 = some m →
        declsEdges ms ds (methodKey m.receiverName m.name) =
          bodyEdges ms m.receiverName (f.body.getD []) := by
  intro ds
  induction ds with
  | nil => intro _ f m hf; cases hf
  | cons d rest ih =>
    intro hnd f m hf hm
    rcases List.mem_cons.mp hf with heq | hmem
    · subst heq
      have hnd' : methodKey m.receiverName m.name ∉ declKeys rest := by
        revert hnd
        show (declKeys (Decl.funcD f :: rest)).Nodup → _
        simp only [declKeys, hm]
        exact fun h => (List.nodup_cons.mp h).1
      show (match extractMethodInfo f 0, f.body with
        | some m0, some sites0 =>
          if methodKey m.receiverName m.name = methodKey m0.receiverName m0.name
          then bodyEdges ms m0.receiverName sites0 else []
        | some _, none => []
        | none, _ => []) ++ declsEdges ms rest (methodKey m.receiverName m.name) =
        bodyEdges ms m.receiverName (f.body.getD [])
      rw [hm]
      rcases hb : f.body with _ | sites
      · show ([] : List String) ++ declsEdges ms rest (methodKey m.receiverName m.name) =
          bodyEdges ms m.receiverName []
        rw [List.nil_append, declsEdges_not_mem ms rest _ hnd']
        rfl
      · show (if methodKey m.receiverName m.name = methodKey m.receiverName m.name
            then bodyEdges ms m.receiverName sites else []) ++
            declsEdges ms rest (methodKey m.receiverName m.name) =
          bodyEdges ms m.receiverName sites
        rw [if_pos rfl, declsEdges_not_mem ms rest _ hnd', List.append_nil]
    · match d with
      | .genD t => exact ih hnd f m hmem hm
      | .funcD g =>
        rcases hg : extractMethodInfo g 0 with _ | mg
        · show (match extractMethodInfo g 0, g.body with
            | some m0, some sites0 =>
              if methodKey m.receiverName m.name = methodKey m0.receiverName m0.name
              then bodyEdges ms m0.receiverName sites0 else []
            | some _, none => []
            | none, _ => []) ++ declsEdges ms rest (methodKey m.receiverName m.name) = _
          rw [hg, List.nil_append]
          refine ih ?_ f m hmem hm
          revert hnd
          show (declKeys (Decl.funcD g :: rest)).Nodup → _
          simp [declKeys, hg]
        · have hknd : (declKeys (Decl.funcD g :: rest)).Nodup := hnd
          have hgrest : methodKey mg.receiverName mg.name ∉ declKeys rest ∧
              (declKeys rest).Nodup := by
            revert hknd
            simp only [declKeys, hg]
            exact fun h => ⟨(List.nodup_cons.mp h).1, (List.nodup_cons.mp h).2⟩
          have hne : methodKey m.receiverName m.name ≠ methodKey mg.receiverName mg.name := by
            intro hcontra
            exact hgrest.1 (hcontra ▸ key_mem_declKeys hmem hm)
          show (match extractMethodInfo g 0, g.body with
            | some m0, some sites0 =>
              if methodKey m.receiverName m.name = methodKey m0.receiverName m0.name
              then bodyEdges ms m0.receiverName sites0 else []
            | some _, none => []
            | none, _ => []) ++ declsEdges ms rest (methodKey m.receiverName m.name) = _
          rw [hg]
          rcases hgb : g.body with _ | gsites
          · rw [List.nil_append]
            exact ih hgrest.2 f m hmem hm
          · show (if methodKey m.receiverName m.name = methodKey mg.receiverName mg.name
                then bodyEdges ms mg.receiverName gsites else []) ++
                declsEdges ms rest (methodKey m.receiverName m.name) = _
            rw [if_neg hne, List.nil_append]
            exact ih hgrest.2 f m hmem hm

/-! ## The renumbered sorted list is a comparator fixpoint -/

theorem bool_eq_of_iff {x y : Bool} (h : x = true ↔ y = true) : x = y := by
  cases x <;> cases y <;> simp_all

theorem sorterSort_cases (decls : List Decl) :
    sorterSort decls =
      if (run1Methods decls).length = 0 then (decls, false)
      else
        if hasOrderChanged (run1Methods decls) (sortMethods (run1Methods decls)) then
          (reorderMethods decls (sortMethods (run1Methods decls)), true)
        else (decls, false) := rfl

theorem run1Methods_eq (decls : List Decl) (hnd : (declKeys decls).Nodup) :
    run1Methods decls =
      (extractRecords decls 0).map
        (metricize (rawGraph decls) (methodKeysOf decls)) :=
  getMethods_run1 decls hnd

theorem lexKey_update_le {a b : MethodInfo} {p q : Int}
    (h : lexKey a ≤ lexKey b) (hpq : p ≤ q) :
    lexKey { a with position := p } ≤ lexKey { b with position := q } := by
  unfold lexKey at h ⊢
  rcases (Prod.Lex.le_iff _ _).mp h with h1 | ⟨h1, h2⟩
  · exact (Prod.Lex.le_iff _ _).mpr (Or.inl h1)
  · refine (Prod.Lex.le_iff _ _).mpr (Or.inr ⟨h1, ?_⟩)
    rcases (Prod.Lex.le_iff _ _).mp h2 with h2a | ⟨h2a, h3⟩
    · exact (Prod.Lex.le_iff _ _).mpr (Or.inl h2a)
    · refine (Prod.Lex.le_iff _ _).mpr (Or.inr ⟨h2a, ?_⟩)
      rcases (Prod.Lex.le_iff _ _).mp h3 with h3a | ⟨h3a, h4⟩
      · exact (Prod.Lex.le_iff _ _).mpr (Or.inl h3a)
      · refine (Prod.Lex.le_iff _ _).mpr (Or.inr ⟨h3a, ?_⟩)
        rcases (Prod.Lex.le_iff _ _).mp h4 with h4a | ⟨h4a, -⟩
        · exact (Prod.Lex.le_iff _ _).mpr (Or.inl h4a)
        · exact (Prod.Lex.le_iff _ _).mpr (Or.inr ⟨h4a, hpq⟩)

theorem renumber_chain (l : List MethodInfo) :
    ∀ p : Int, l.Chain' (fun a b => lexKey a ≤ lexKey b) →
      (renumber l p).Chain' (fun a b => shouldSwap a b = false) := by
  induction l with
  | nil => intro p _; exact List.chain'_nil
  | cons a rest ih =>
    intro p h
    cases rest with
    | nil => exact List.chain'_singleton _
    | cons b rest' =>
      rw [List.chain'_cons] at h
      show List.Chain' _ ({ a with position := p } :: renumber (b :: rest') (p + 1))
      rw [show renumber (b :: rest') (p + 1) =
          { b with position := p + 1 } :: renumber rest' (p + 1 + 1) from rfl,
        List.chain'_cons]
      refine ⟨?_, ?_⟩
      · rw [shouldSwap_eq_false_iff]
        exact lexKey_update_le h.1 (by omega)
      · rw [show ({ b with position := p + 1 } :: renumber rest' (p + 1 + 1) :
            List MethodInfo) = renumber (b :: rest') (p + 1) from rfl]
        exact ih (p + 1) h.2

theorem idempotent_core (decls : List Decl) (hnd : (declKeys decls).Nodup) :
    sorterSort (sorterSort decls).1 = ((sorterSort decls).1, false) := by
  by_cases h0 : (run1Methods decls).length = 0
  · have hrun : sorterSort decls = (decls, false) := by
      rw [sorterSort_cases, if_pos h0]
    rw [hrun]
    exact hrun
  · by_cases hch : hasOrderChanged (run1Methods decls)
        (sortMethods (run1Methods decls)) = true
    · have hout : sorterSort decls =
          (reorderMethods decls (sortMethods (run1Methods decls)), true) := by
        rw [sorterSort_cases, if_neg h0, if_pos hch]
      rw [hout]
      show sorterSort (reorderMethods decls (sortMethods (run1Methods decls))) =
        (reorderMethods decls (sortMethods (run1Methods decls)), false)
      have hM := run1Methods_eq decls hnd
      have hsp' : (sortMethods (run1Methods decls)).Perm
          ((extractRecords decls 0).map
            (metricize (rawGraph decls) (methodKeysOf decls))) := by
        rw [← hM]
        exact sortMethods_perm _
      have hreo : reorderMethods decls (sortMethods (run1Methods decls)) =
          decls.filter (fun d => !(isMethodDecl d)) ++
            (sortMethods (run1Methods decls)).map (fun m => Decl.funcD m.funcDecl) :=
        run1_reorder decls _ hsp'
      have hex : ∀ m ∈ sortMethods (run1Methods decls), ∀ q : Int,
          extractMethodInfo m.funcDecl q =
            some { m with position := q, inDegree := 0, maxDepth := 0 } :=
        fun m hm => mem_run1_extract (hsp'.mem_iff.mp hm)
      have hnm : ∀ d ∈ decls.filter (fun d => !(isMethodDecl d)),
          isMethodDecl d = false := by
        intro d hd
        have hh := (List.mem_filter.mp hd).2
        cases hmd : isMethodDecl d
        · rfl
        · rw [hmd] at hh
          cases hh
      have hE2 : extractRecords
            (reorderMethods decls (sortMethods (run1Methods decls))) 0 =
          resetList (sortMethods (run1Methods decls)) 0 := by
        rw [hreo, extractRecords_append_nonmethods _ _ 0 hnm,
          extractRecords_funcD_list _ 0 hex]
      have hK2keys : declKeys (reorderMethods decls (sortMethods (run1Methods decls))) =
          (sortMethods (run1Methods decls)).map recKey := by
        rw [← extractRecords_map_key _ 0, hE2, resetList_map_key]
      have hMkeys : (((extractRecords decls 0).map
          (metricize (rawGraph decls) (methodKeysOf decls))).map recKey) =
          declKeys decls := by
        rw [List.map_map]
        exact extractRecords_map_key decls 0
      have hperm2 : (declKeys
            (reorderMethods decls (sortMethods (run1Methods decls)))).Perm
          (declKeys decls) := by
        rw [hK2keys, ← hMkeys]
        exact hsp'.map recKey
      have hnd2 : (declKeys
          (reorderMethods decls (sortMethods (run1Methods decls)))).Nodup :=
        hperm2.nodup_iff.mpr hnd
      have hinv1 : ∀ pr ∈ (rawGraph decls).calls, pr.2 ≠ ([] : List String) := by
        refine collectCalls_entries_nonempty decls _ ?_
        intro pr hpr
        rw [collectMethods_calls] at hpr
        exact absurd hpr (List.not_mem_nil pr)
      have hinv2 : ∀ pr ∈ (rawGraph
            (reorderMethods decls (sortMethods (run1Methods decls)))).calls,
          pr.2 ≠ ([] : List String) := by
        refine collectCalls_entries_nonempty _ _ ?_
        intro pr hpr
        rw [collectMethods_calls] at hpr
        exact absurd hpr (List.not_mem_nil pr)
      have hms1keys : mapKeysOf (collectMethods decls 0 NewCallGraph).methods =
          declKeys decls := methodKeysOf_eq_declKeys decls hnd
      have hms2keys : mapKeysOf (collectMethods
            (reorderMethods decls (sortMethods (run1Methods decls)))
            0 NewCallGraph).methods =
          declKeys (reorderMethods decls (sortMethods (run1Methods decls))) :=
        methodKeysOf_eq_declKeys _ hnd2
      have hmsiff : ∀ k, (mapLookup (collectMethods
              (reorderMethods decls (sortMethods (run1Methods decls)))
              0 NewCallGraph).methods k).isSome =
          (mapLookup (collectMethods decls 0 NewCallGraph).methods k).isSome := by
        intro k
        refine bool_eq_of_iff ?_
        rw [mapLookup_isSome_iff, mapLookup_isSome_iff, hms1keys, hms2keys]
        exact hperm2.mem_iff
      have hcallseq : ∀ k,
          lookupCalls (rawGraph
            (reorderMethods decls (sortMethods (run1Methods decls)))).calls k =
            lookupCalls (rawGraph decls).calls k := by
        intro k
        show lookupCalls (collectCalls
            (reorderMethods decls (sortMethods (run1Methods decls)))
            (collectMethods (reorderMethods decls (sortMethods (run1Methods decls)))
              0 NewCallGraph)).calls k =
          lookupCalls (collectCalls decls
            (collectMethods decls 0 NewCallGraph)).calls k
        rw [run_calls_lookup, run_calls_lookup]
        by_cases hk : k ∈ declKeys decls
        · obtain ⟨r, hr, hrk⟩ := List.mem_map.mp
            (show k ∈ (extractRecords decls 0).map recKey from by
              rw [extractRecords_map_key]
              exact hk)
          subst hrk
          have hmem1 : Decl.funcD r.funcDecl ∈ decls :=
            extractRecords_mem_decl decls 0 r hr
          have hg1 : extractMethodInfo r.funcDecl 0 = some { r with position := 0 } :=
            extractRecords_good decls 0 r hr 0
          have h1 : declsEdges (collectMethods decls 0 NewCallGraph).methods decls

              (recKey r) =
              bodyEdges (collectMethods decls 0 NewCallGraph).methods r.receiverName
                (r.funcDecl.body.getD []) :=
            declsEdges_key _ decls hnd r.funcDecl { r with position := 0 } hmem1 hg1
          have hmmem : metricize (rawGraph decls) (methodKeysOf decls) r ∈
              sortMethods (run1Methods decls) :=
            hsp'.mem_iff.mpr (List.mem_map_of_mem _ hr)
          have hmem2 : Decl.funcD
              (metricize (rawGraph decls) (methodKeysOf decls) r).funcDecl ∈
              reorderMethods decls (sortMethods (run1Methods decls)) := by
            rw [hreo]
            exact List.mem_append_right _ (List.mem_map_of_mem _ hmmem)
          have hg2 := hex _ hmmem 0
          have h2 : declsEdges (collectMethods
                (reorderMethods decls (sortMethods (run1Methods decls)))
                0 NewCallGraph).methods
              (reorderMethods decls (sortMethods (run1Methods decls))) (recKey r) =
              bodyEdges (collectMethods
                (reorderMethods decls (sortMethods (run1Methods decls)))
                0 NewCallGraph).methods
                r.receiverName (r.funcDecl.body.getD []) :=
            declsEdges_key _ _ hnd2
              (metricize (rawGraph decls) (methodKeysOf decls) r).funcDecl
              { metricize (rawGraph decls) (methodKeysOf decls) r with
                  position := (0 : Int), inDegree := (0 : Int), maxDepth := (0 : Int) }
              hmem2 hg2
          rw [h1, h2]
          exact bodyEdges_congr hmsiff r.receiverName _
        · have hk2 : k ∉ declKeys
              (reorderMethods decls (sortMethods (run1Methods decls))) :=
            fun hc => hk (hperm2.mem_iff.mp hc)
          rw [declsEdges_not_mem _ _ _ hk2, declsEdges_not_mem _ _ _ hk]
      have hKperm : (methodKeysOf
            (reorderMethods decls (sortMethods (run1Methods decls)))).Perm
          (methodKeysOf decls) := by
        rw [methodKeysOf_eq_declKeys _ hnd2, methodKeysOf_eq_declKeys decls hnd]
        exact hperm2
      have hsorteq : sortStrings (methodKeysOf
            (reorderMethods decls (sortMethods (run1Methods decls)))) =
          sortStrings (methodKeysOf decls) := sortStrings_eq_of_perm hKperm
      have hmetcong : metricize
            (rawGraph (reorderMethods decls (sortMethods (run1Methods decls))))
            (methodKeysOf (reorderMethods decls (sortMethods (run1Methods decls)))) =
          metricize (rawGraph decls) (methodKeysOf decls) :=
        funext (metricize_congr hinv2 hinv1 hcallseq hsorteq)
      have hsortedmet : ∀ m ∈ sortMethods (run1Methods decls),
          m.maxDepth = calculateMaxDepth (rawGraph decls).calls (recKey m) ∅ ∧
          m.inDegree = (mapLookup (inDegreeMap (rawGraph decls)
            (sortStrings (methodKeysOf decls))) (recKey m)).getD 0 := by
        intro m hm
        obtain ⟨r, hr, rfl⟩ := List.mem_map.mp (hsp'.mem_iff.mp hm)
        exact ⟨rfl, rfl⟩
      have hM2 : run1Methods (reorderMethods decls (sortMethods (run1Methods decls))) =
          renumber (sortMethods (run1Methods decls)) 0 := by
        rw [run1Methods_eq _ hnd2, hE2, hmetcong]
        exact map_metricize_resetList _ _ _ 0 hsortedmet
      have hchain2 : (renumber (sortMethods (run1Methods decls)) 0).Chain'
          (fun a b => shouldSwap a b = false) :=
        renumber_chain _ 0 (List.Pairwise.chain' (sortMethods_sorted _))
      rw [sorterSort_cases]
      by_cases hl0 : (run1Methods
          (reorderMethods decls (sortMethods (run1Methods decls)))).length = 0
      · rw [if_pos hl0]
      · rw [if_neg hl0, hM2, sortMethods_of_chain _ hchain2, hasOrderChanged_self]
        simp
    · have hrun : sorterSort decls = (decls, false) := by
        rw [sorterSort_cases, if_neg h0, if_neg hch]
      rw [hrun]
      exact hrun

/-! ## Claim C3 -/

/-- Claim C3: the sorter pipeline is deterministic.  The only
implementation-nondeterminism in the current (dst) generation is the Go
map iteration order, explicit here as the enumeration parameters; for
any two runs — any enumerations of the method-key map — `Sort` produces
identical output declaration trees (the bytes handed to the external,
deterministic renderer) and identical changed flags.  In particular two
mutually recursive private methods are ordered identically on repeated
runs (`c3_witness`). -/
theorem c3_sort_deterministic (decls : List Decl) (e₁ e₂ e₁' e₂' : List String)
    (h1 : e₁.Perm (methodKeysOf decls)) (h2 : e₂.Perm (methodKeysOf decls))
    (h1' : e₁'.Perm (methodKeysOf decls)) (h2' : e₂'.Perm (methodKeysOf decls)) :
    sorterSortE decls e₁ e₂ = sorterSortE decls e₁' e₂' := by
  have hs1 : sortStrings e₁ = sortStrings e₁' :=
    sortStrings_eq_of_perm (h1.trans h1'.symm)
  have hs2 : sortStrings e₂ = sortStrings e₂' :=
    sortStrings_eq_of_perm (h2.trans h2'.symm)
  have hb : buildCallGraphE decls e₁ = buildCallGraphE decls e₁' := by
    unfold buildCallGraphE CalculateMetricsE
    rw [hs1]
  have hg : ∀ cg : CallGraph, GetMethodsE cg e₂ = GetMethodsE cg e₂' := by
    intro cg
    unfold GetMethodsE
    rw [hs2]
  unfold sorterSortE
  rw [hb]
  exact congrArg
    (fun methods : List MethodInfo =>
      if methods.length = 0 then (decls, false)
      else
        if hasOrderChanged methods (sortMethods methods) then
          (reorderMethods decls (sortMethods methods), true)
        else (decls, false))
    (hg (buildCallGraphE decls e₁'))

/-- Witness for `c3_sort_deterministic`: two runs over the mutually
recursive `c4File` with opposite map iteration orders produce identical
output and changed flag. -/
theorem c3_witness :
    sorterSortE c4File ["Server.methodA", "Server.methodB"]
        ["Server.methodA", "Server.methodB"] =
      sorterSortE c4File ["Server.methodB", "Server.methodA"]
        ["Server.methodB", "Server.methodA"] :=
  c3_sort_deterministic c4File _ _ _ _ (by decide) (by decide) (by decide) (by decide)

/-! ## Claim C1 -/

/-- Claim C1 (code bug): the specification, the README and the test
comments all order `inDegree` ascending (higher in-degree last), but the
comparator's `keyA.InDegree < keyB.InDegree` branch swaps the
lower-in-degree record to the back: on two records that agree on
receiver, visibility and depth and differ only in in-degree (0 versus 3),
`shouldSwap` moves the in-degree-0 record after the in-degree-3 record,
and `sortMethods` orders the in-degree-3 record first — in-degree
descending, the opposite of the claimed key direction. -/
theorem c1_inDegree_direction_eval :
    c1MethodA.receiverName = c1MethodB.receiverName ∧
    c1MethodA.isExported = c1MethodB.isExported ∧
    c1MethodA.maxDepth = c1MethodB.maxDepth ∧
    c1MethodA.inDegree < c1MethodB.inDegree ∧
    shouldSwap c1MethodA c1MethodB = true ∧
    sortMethods [c1MethodA, c1MethodB] = [c1MethodB, c1MethodA] := by
  constructor
  · rfl
  · exact ⟨rfl, rfl, by decide, rfl, by decide⟩

/-! ## Claim C6 -/

/-- Claim C6 (code bug): the dst-generation `AddCall` has no duplicate
check, so two call sites `s.helper()` in the same body produce two
parallel edges, and `CalculateMetrics` counts `helper`'s in-degree as 2
although only one distinct source method calls it — edge insertion is not
idempotent and in-degree counts call sites, not distinct callers. -/
theorem c6_duplicate_edges_eval :
    lookupCalls (buildCallGraph c6File).calls (methodKey "Server" "Start") =
      [methodKey "Server" "helper", methodKey "Server" "helper"] ∧
    (mapLookup (buildCallGraph c6File).methods (methodKey "Server" "helper")).map
      (fun m => m.inDegree) = some 2 := by
  constructor
  · decide
  · decide

/-! ## Claim C10 -/

/-- Claim C10 (code bug): on a parseable method whose receiver type the
extractor cannot classify (receiver name extracted as the zero value
`""`), a body call through a single-byte identifier makes the
go/ast-generation call visitor evaluate `v.currentReceiver[0:1]` on the
empty string, an out-of-range slice — a runtime panic, not an error
value.  The dst generation's added `len(v.currentReceiver) > 0` guard
returns `false` instead on the same input. -/
theorem c10_panic_eval :
    (extractMethodInfo c10Method 0).map (fun m => m.receiverName) = some "" ∧
    identMatchesAst "" "x" = .error "runtime error: slice bounds out of range" ∧
    collectCallsAst c10File (collectMethods c10File 0 NewCallGraph) =
      .error "runtime error: slice bounds out of range" ∧
    identMatches "" "x" = false := by
  refine ⟨rfl, rfl, rfl, by decide⟩

/-! ## Claim C5, counterexample -/

/-- Claim C5 fails on cyclic graphs: on the 2-cycle `A ⇄ B` the
unmemoized per-traversal-path reference gives depth 2 to both nodes,
while the memoizing computation processed in order `[A, B]` stores depth
1 for `B` (computed while `A` was on the path and then reused at top
level), and processing in order `[B, A]` gives a different memo — the
memoized and unmemoized results disagree, and the memoized results
depend on the processing order. -/
theorem c5_counterexample :
    calculateMaxDepth c5Calls "B" ∅ = 2 ∧
    mapLookup (calculateDepthAll c5Calls ["A", "B"]) "B" = some 1 ∧
    calculateDepthAll c5Calls ["A", "B"] ≠ calculateDepthAll c5Calls ["B", "A"] := by
  refine ⟨by decide, by decide, by decide⟩

/-! ## Claim C9 -/

/-- Claim C9 fails as stated: `ensureBlankLinesBetweenMethods` only
inserts a blank line between a `"\x7d"` line and a following `func ` line,
so two consecutive type declarations that abut with no blank line are
left unseparated — the output does not have exactly one blank separator
line between these two consecutive top-level declarations. -/
theorem c9_counterexample :
    ensureBlankLinesBetweenMethods c9Content = c9Content ∧
    splitLines c9Content =
      ["package p", "", "type A struct \x7b", "\x7d", "type B struct \x7b", "\x7d"] := by
  refine ⟨by decide, by decide⟩

/-- Claim C9 amended: the blank-line guarantee the post-processor
actually establishes is that no line whose trimmed text is `"\x7d"` is
immediately followed by a line whose trimmed text starts with `"func "`
— a function declaration never directly abuts the closing brace of the
previous declaration; other consecutive top-level declarations are not
guaranteed a blank separator. -/
theorem c9_amended (content : String) :
    List.Chain'
      (fun a b => ¬(trimGo a = "\x7d" ∧ startsWithGo (trimGo b) "func " = true))
      (ensureAux (splitLines content)) :=
  ensureAux_chain (splitLines content)

/-! ## Claim C7 -/

/-- Claim C7: for a file whose method keys are pairwise distinct, `Sort`
reports `changed = false` exactly when the sorted record sequence
carries the same original-position sequence as the collected record list
(the first-appearance numbering), and the pipeline is idempotent:
running `Sort` on its own output reports `changed = false` and returns
that output unchanged. -/
theorem c7_change_iff_and_idempotent (decls : List Decl)
    (hnd : (declKeys decls).Nodup) :
    ((sorterSort decls).2 = false ↔
      (sortMethods (run1Methods decls)).map (fun m => m.position) =
        (run1Methods decls).map (fun m => m.position)) ∧
    sorterSort (sorterSort decls).1 = ((sorterSort decls).1, false) := by
  refine ⟨?_, idempotent_core decls hnd⟩
  rw [sorterSort_cases]
  by_cases h0 : (run1Methods decls).length = 0
  · rw [if_pos h0]
    have hMnil : run1Methods decls = [] := List.length_eq_zero.mp h0
    rw [hMnil]
    exact ⟨fun _ => rfl, fun _ => rfl⟩
  · have hlen : (run1Methods decls).length =
        (sortMethods (run1Methods decls)).length :=
      ((sortMethods_perm (run1Methods decls)).length_eq).symm
    by_cases hch : hasOrderChanged (run1Methods decls)
        (sortMethods (run1Methods decls)) = true
    · rw [if_neg h0, if_pos hch]
      constructor
      · intro hcontra
        cases hcontra
      · intro hmaps
        have hfalse := (hasOrderChanged_eq_false_iff _ _ hlen).mpr hmaps
        rw [hfalse] at hch
        cases hch
    · rw [if_neg h0, if_neg hch]
      have hch' : hasOrderChanged (run1Methods decls)
          (sortMethods (run1Methods decls)) = false := by
        revert hch
        cases hasOrderChanged (run1Methods decls) (sortMethods (run1Methods decls))
        · intro _
          rfl
        · intro hc
          exact absurd rfl hc
      have hmaps := (hasOrderChanged_eq_false_iff _ _ hlen).mp hch'
      exact ⟨fun _ => hmaps, fun _ => rfl⟩

/-- Witness for `c7_change_iff_and_idempotent`: the file `c8File` has
distinct method keys; its first run moves the exported `Start` ahead of
`helper`, and the second run is a no-op on the reordered file. -/
theorem c7_witness :
    (declKeys c8File).Nodup ∧
      (((sorterSort c8File).2 = false ↔
        (sortMethods (run1Methods c8File)).map (fun m => m.position) =
          (run1Methods c8File).map (fun m => m.position)) ∧
        sorterSort (sorterSort c8File).1 = ((sorterSort c8File).1, false)) :=
  ⟨by decide, c7_change_iff_and_idempotent c8File (by decide)⟩

/-! ## Claim C8 -/

theorem filter_method_split (l : List Decl) :
    (l.filter (fun d => !(isMethodDecl d)) ++ l.filter isMethodDecl).Perm l := by
  induction l with
  | nil => exact List.Perm.refl []
  | cons d l ih =>
    cases hmd : isMethodDecl d
    · simp only [List.filter_cons, hmd, Bool.not_false, if_true,
        Bool.false_eq_true, if_false, List.cons_append]
      exact ih.cons d
    · simp only [List.filter_cons, hmd, Bool.not_true, Bool.false_eq_true, if_false,
        if_true]
      exact List.Perm.trans List.perm_middle (ih.cons d)

/-- Claim C8 fails as stated: in `dupFile` two method declarations share
the key `Server.Start`; the second overwrites the first in the methods
map, `reorderMethods` does not recognise the shadowed first `Start` as a
method node, and the rewritten file keeps that method declaration inside
the non-method prefix (before the `genD` declaration) instead of
appending every method declaration after the non-methods. -/
theorem c8_counterexample :
    (sorterSort dupFile).2 = true ∧
      (sorterSort dupFile).1 =
        [Decl.funcD ⟨1, "Start", some [⟨["s"], .star "Server"⟩], some []⟩,
         Decl.genD 5,
         Decl.funcD ⟨2, "Start", some [⟨["s"], .star "Server"⟩], some []⟩,
         Decl.funcD ⟨0, "helper", some [⟨["s"], .star "Server"⟩], some []⟩] ∧
      isMethodDecl (Decl.funcD ⟨1, "Start", some [⟨["s"], .star "Server"⟩],
        some []⟩) = true ∧
      (sorterSort dupFile).1 ≠
        dupFile.filter (fun d => !(isMethodDecl d)) ++
          (sorterSort dupFile).1.filter isMethodDecl :=
  ⟨by decide, by decide, by decide, by decide⟩

/-- Claim C8 amended: on a file whose method keys are pairwise distinct
the rewrite is exactly as claimed — the output is a permutation of the
input declarations (none added, dropped or duplicated), and whenever a
rewrite happens the output is the non-method declarations in their
original relative order followed by the method declarations in exactly
the target sorted order; when nothing changed the input is returned
untouched. -/
theorem c8_amended (decls : List Decl) (hnd : (declKeys decls).Nodup) :
    ((sorterSort decls).1).Perm decls ∧
      ((sorterSort decls).2 = true →
        (sorterSort decls).1 =
          decls.filter (fun d => !(isMethodDecl d)) ++
            (sortMethods (run1Methods decls)).map (fun m => Decl.funcD m.funcDecl)) ∧
      ((sorterSort decls).2 = false → (sorterSort decls).1 = decls) := by
  rw [sorterSort_cases]
  by_cases h0 : (run1Methods decls).length = 0
  · rw [if_pos h0]
    exact ⟨List.Perm.refl decls, fun hc => Bool.noConfusion hc, fun _ => rfl⟩
  · by_cases hch : hasOrderChanged (run1Methods decls)
        (sortMethods (run1Methods decls)) = true
    · rw [if_neg h0, if_pos hch]
      have hM := run1Methods_eq decls hnd
      have hsp' : (sortMethods (run1Methods decls)).Perm
          ((extractRecords decls 0).map
            (metricize (rawGraph decls) (methodKeysOf decls))) := by
        rw [← hM]
        exact sortMethods_perm _
      have hreo := run1_reorder decls _ hsp'
      refine ⟨?_, fun _ => hreo, fun hc => Bool.noConfusion hc⟩
      show (reorderMethods decls (sortMethods (run1Methods decls))).Perm decls
      rw [hreo]
      have h1 : ((sortMethods (run1Methods decls)).map
          (fun m => Decl.funcD m.funcDecl)).Perm (decls.filter isMethodDecl) := by
        have hmapped := hsp'.map (fun m => Decl.funcD m.funcDecl)
        rw [List.map_map] at hmapped
        refine hmapped.trans (List.Perm.of_eq ?_)
        exact extractRecords_eq_filter decls 0
      exact (List.Perm.append_left _ h1).trans (filter_method_split decls)
    · rw [if_neg h0, if_neg hch]
      exact ⟨List.Perm.refl decls, fun hc => Bool.noConfusion hc, fun _ => rfl⟩

/-- Witness for `c8_amended`: on `c8File` (distinct keys, rewrite
happens) the output is a permutation of the input with the non-methods
first and the methods in target order. -/
theorem c8_witness :
    (declKeys c8File).Nodup ∧
      (((sorterSort c8File).1).Perm c8File ∧
        ((sorterSort c8File).2 = true →
          (sorterSort c8File).1 =
            c8File.filter (fun d => !(isMethodDecl d)) ++
              (sortMethods (run1Methods c8File)).map
                (fun m => Decl.funcD m.funcDecl)) ∧
        ((sorterSort c8File).2 = false → (sorterSort c8File).1 = c8File)) :=
  ⟨by decide, c8_amended c8File (by decide)⟩

end Gomsort
